import Mathlib

/-!
Verification development for the `typhoon` UI framework
(`typhoon-core/src/lib.rs` and `typhoon-macro/src/lib.rs`).

Part 1 models the reactive store (`Signal<T>`): a value plus an append-only
list of subscriber callbacks, where `Signal::set` writes the value and then
runs one notification round bounded by the subscriber count captured at the
start of the round, resolving each callback by index just before invoking it.
Subscriber closures are deep-embedded as small command programs (`Cmd`), and
execution is a fuel-based interpreter (`run`) that also emits a ghost event
trace (`Ev`) recording round starts/ends, subscriber invocations and
localStorage writes, so that the ordering claims of the specification can be
stated.  The `storage`/`avail` fields model the browser `localStorage`
environment used by `use_local_storage`; `rounds` is a ghost counter that
hands out a fresh identifier to every notification round.
-/

namespace Typhoon

/-- A subscriber callback body (`Box<dyn Fn()>` in the source), deep-embedded:
it can emit an observable side effect (`log`), re-entrantly call
`Signal::set` on the same cell (`setc`), branch on the current value read via
`Signal::get` (`ifEq`), register a further subscriber (`sub`), or perform the
`use_local_storage` persistence write (`persist`): serialize the current value
and store it under a key. -/
inductive Cmd (α : Type) where
  | log : Nat → Cmd α
  | setc : α → Cmd α
  | ifEq : α → List (Cmd α) → List (Cmd α) → Cmd α
  | sub : List (Cmd α) → Cmd α
  | persist : String → Cmd α

/-- Ghost trace events: `start r` / `done r` bracket the notification round
with fresh identifier `r`, `inv r i` records that round `r` invoked the
subscriber at index `i`, `log k` is a subscriber's observable effect, and
`write k` records an actual localStorage write under key `k`. -/
inductive Ev where
  | start : Nat → Ev
  | done : Nat → Ev
  | inv : Nat → Nat → Ev
  | log : Nat → Ev
  | write : String → Ev
deriving DecidableEq

/-- The shared cell state.  `value` and `subscribers` are the fields of
`SignalInner<T>` in the source (`subscribers: Vec<Box<dyn Fn()>>` becomes a
list of command programs).  `storage`/`avail` model the external
`localStorage` key-value store and its availability (threaded through
execution because the `persist` callback writes to it), and `rounds` is a
ghost counter of notification-round identifiers. -/
structure SignalInner (α : Type) where
  value : α
  subscribers : List (List (Cmd α))
  storage : List (String × String)
  avail : Bool
  rounds : Nat

/-- `localStorage.getItem`: first binding of the key wins (later `setItem`
calls prepend, shadowing older bindings). -/
def lookupKV : List (String × String) → String → Option String
  | [], _ => none
  | (k, v) :: rest, key => if key = k then some v else lookupKV rest key

/-- Work items of the interpreter: a `Signal::set` call, the notification
loop `for i in 0..len` of round `r` at index `i` with captured bound `n`,
and the remaining body of the callback currently running. -/
inductive Job (α : Type) where
  | doSet : α → Job α
  | round : Nat → Nat → Nat → Job α
  | cmds : List (Cmd α) → Job α

/-- Fuel-based interpreter for the re-entrant notification protocol of
`Signal::set` (typhoon-core/src/lib.rs:135-152):

* `doSet v` writes the value unconditionally, then starts one round:
  it captures the bound `n = subscribers.len()` (the value write does not
  touch the list, so reading the length before or after it is the same) and
  iterates indices `0..n`;
* `round r i n` resolves the callback at index `i` from the *current*
  subscriber list (the source re-borrows `subscribers[i]` just before the
  call), runs it to completion, and only then moves on to index `i+1` —
  nested `set` calls therefore finish synchronously, on the stack;
* `cmds` runs a callback body; `sub` appends to the subscriber list exactly
  as `Signal::subscribe` does, and `persist key` performs the
  `use_local_storage` write (skipped silently when the storage is
  unavailable or serialization fails, mirroring the `.ok()` chains).

`enc` is the JSON serializer (`serde_json::to_string`, `None` = failure).
Fuel exhaustion returns `none` (the source would recurse forever /
overflow the stack on such inputs). -/
def run {α : Type} [DecidableEq α] (enc : α → Option String) :
    Nat → Job α → SignalInner α → Option (SignalInner α × List Ev)
  | 0, _, _ => none
  | fuel + 1, Job.doSet v, st =>
      match run enc fuel (Job.round st.rounds 0 st.subscribers.length)
          { st with value := v, rounds := st.rounds + 1 } with
      | none => none
      | some (st', tr) => some (st', Ev.start st.rounds :: tr)
  | fuel + 1, Job.round r i n, st =>
      if i < n then
        match st.subscribers[i]? with
        | none => none
        | some cb =>
          match run enc fuel (Job.cmds cb) st with
          | none => none
          | some (st1, tr1) =>
            match run enc fuel (Job.round r (i + 1) n) st1 with
            | none => none
            | some (st2, tr2) => some (st2, Ev.inv r i :: (tr1 ++ tr2))
      else some (st, [Ev.done r])
  | _ + 1, Job.cmds [], st => some (st, [])
  | fuel + 1, Job.cmds (Cmd.log k :: cs), st =>
      match run enc fuel (Job.cmds cs) st with
      | none => none
      | some (st', tr) => some (st', Ev.log k :: tr)
  | fuel + 1, Job.cmds (Cmd.sub s :: cs), st =>
      run enc fuel (Job.cmds cs) { st with subscribers := st.subscribers ++ [s] }
  | fuel + 1, Job.cmds (Cmd.persist key :: cs), st =>
      match (if st.avail then enc st.value else none) with
      | some j =>
        match run enc fuel (Job.cmds cs) { st with storage := (key, j) :: st.storage } with
        | none => none
        | some (st', tr) => some (st', Ev.write key :: tr)
      | none => run enc fuel (Job.cmds cs) st
  | fuel + 1, Job.cmds (Cmd.setc v :: cs), st =>
      match run enc fuel (Job.doSet v) st with
      | none => none
      | some (st1, tr1) =>
        match run enc fuel (Job.cmds cs) st1 with
        | none => none
        | some (st2, tr2) => some (st2, tr1 ++ tr2)
  | fuel + 1, Job.cmds (Cmd.ifEq v thn els :: cs), st =>
      if st.value = v then run enc fuel (Job.cmds (thn ++ cs)) st
      else run enc fuel (Job.cmds (els ++ cs)) st

/-- `Signal::get` (typhoon-core/src/lib.rs:130-132): returns a clone of the
current value; the shared-read borrow mutates nothing. -/
def Signal.get {α : Type} (st : SignalInner α) : α := st.value

/-- `Signal::set` (typhoon-core/src/lib.rs:135-152). -/
def Signal.set {α : Type} [DecidableEq α] (enc : α → Option String) (fuel : Nat)
    (v : α) (st : SignalInner α) : Option (SignalInner α × List Ev) :=
  run enc fuel (Job.doSet v) st

/-- `Signal::subscribe` (typhoon-core/src/lib.rs:155-157): pushes the
callback at the end of the subscriber list; no handle is returned. -/
def Signal.subscribe {α : Type} (st : SignalInner α) (f : List (Cmd α)) :
    SignalInner α :=
  { st with subscribers := st.subscribers ++ [f] }

/-- `Signal::new` (typhoon-core/src/lib.rs:120-127): fresh cell with the
given value and an empty subscriber list, in the given storage environment. -/
def Signal.new {α : Type} (value : α) (storage : List (String × String))
    (avail : Bool) : SignalInner α :=
  { value := value, subscribers := [], storage := storage, avail := avail,
    rounds := 0 }

/-- Indices of the subscribers invoked by round `r`, in trace order. -/
def invsOf (r : Nat) (tr : List Ev) : List Nat :=
  tr.filterMap fun e =>
    match e with
    | Ev.inv r' i => if r' = r then some i else none
    | _ => none

/-- Identifiers of the rounds started in a trace, in trace order. -/
def startsOf (tr : List Ev) : List Nat :=
  tr.filterMap fun e =>
    match e with
    | Ev.start r => some r
    | _ => none

/-- Stack-discipline checker for a trace: `start r` pushes `r`, `done r`
pops it, and an invocation `inv r i` is legal only while `r` is the
*innermost* open round.  A trace passes (returns the untouched outer stack)
exactly when every nested notification round runs to completion before the
round that spawned it invokes any further subscriber. -/
def nestCheck : List Ev → List Nat → Option (List Nat)
  | [], stk => some stk
  | Ev.start r :: es, stk => nestCheck es (r :: stk)
  | Ev.done r :: es, stk =>
      match stk with
      | [] => none
      | r' :: stk' => if r = r' then nestCheck es stk' else none
  | Ev.inv r _ :: es, stk =>
      match stk with
      | [] => none
      | r' :: _ => if r = r' then nestCheck es stk else none
  | Ev.log _ :: es, stk => nestCheck es stk
  | Ev.write _ :: es, stk => nestCheck es stk

/-- `Signal<T>` handle as seen by user code: `struct Signal<T> { inner:
Rc<RefCell<SignalInner<T>>> }`.  The `Rc` pointer is modelled as a heap
address. -/
structure Signal where
  inner : Nat

/-- `impl Clone for Signal` (typhoon-core/src/lib.rs:111-117):
`Rc::clone(&self.inner)` — the clone carries the same pointer, no new cell
is allocated. -/
def Signal.clone (s : Signal) : Signal :=
  { inner := s.inner }

/-- The heap of allocated cells, addressed by `Rc` pointer. -/
def Heap (α : Type) : Type := Nat → SignalInner α

/-- `Signal::get` called through a handle. -/
def heapGet {α : Type} (h : Heap α) (s : Signal) : α :=
  Signal.get (h s.inner)

/-- `Signal::set` called through a handle: runs on the pointed-to cell and
stores the updated cell back at the same address. -/
def heapSet {α : Type} [DecidableEq α] (enc : α → Option String) (fuel : Nat)
    (h : Heap α) (s : Signal) (v : α) : Option (Heap α × List Ev) :=
  match Signal.set enc fuel v (h s.inner) with
  | none => none
  | some (st', tr) => some (Function.update h s.inner st', tr)

/-- A serializer that always fails (also stands in for `T : Clone` values
with no serialization at all, as in plain `use_state` cells). -/
def encNone : Nat → Option String := fun _ => none

/-- `serde_json::to_string` for `Nat`-valued cells: always succeeds. -/
def encShow : Nat → Option String := fun n => some (toString n)

/-- Example cell: value `5`, two purely observing subscribers. -/
def exSubsLog : SignalInner Nat :=
  { value := 5, subscribers := [[Cmd.log 1], [Cmd.log 2]], storage := [],
    avail := false, rounds := 0 }

/-- Example cell whose first subscriber re-entrantly sets the value to `2`
whenever it observes the value `1`, and whose second subscriber logs. -/
def exNested : SignalInner Nat :=
  { value := 0,
    subscribers := [[Cmd.ifEq 1 [Cmd.setc 2] []], [Cmd.log 7]],
    storage := [], avail := false, rounds := 0 }

/-- Example cell with one subscriber that sets the value to `5` whenever it
observes the value `3`. -/
def exReentrant : SignalInner Nat :=
  { value := 0, subscribers := [[Cmd.ifEq 3 [Cmd.setc 5] []]], storage := [],
    avail := false, rounds := 0 }


/-- The interpreter only ever appends to the subscriber list, never
decreases the round counter, and never changes storage availability. -/
theorem run_mono {α : Type} [DecidableEq α] (enc : α → Option String) :
    ∀ fuel (job : Job α) st st' tr, run enc fuel job st = some (st', tr) →
      (∃ t, st'.subscribers = st.subscribers ++ t) ∧ st.rounds ≤ st'.rounds ∧
        st'.avail = st.avail := by
  intro fuel
  induction fuel with
  | zero => intro job st st' tr h; simp [run] at h
  | succ fuel ih =>
    intro job st st' tr h
    cases job with
    | doSet v =>
      simp only [run] at h
      split at h
      · exact absurd h (by simp)
      · rename_i a b heq
        obtain ⟨rfl, rfl⟩ : a = st' ∧ Ev.start st.rounds :: b = tr := by
          simpa using h
        obtain ⟨⟨t, ht⟩, hr, ha⟩ := ih _ _ _ _ heq
        exact ⟨⟨t, by simpa using ht⟩, by simpa using Nat.le_of_succ_le hr,
          by simpa using ha⟩
    | round r i n =>
      simp only [run] at h
      split at h
      · split at h
        · exact absurd h (by simp)
        · rename_i cb hcb
          split at h
          · exact absurd h (by simp)
          · rename_i st1 tr1 h1
            split at h
            · exact absurd h (by simp)
            · rename_i st2 tr2 h2
              obtain ⟨rfl, rfl⟩ : st2 = st' ∧ Ev.inv r i :: (tr1 ++ tr2) = tr := by
                simpa using h
              obtain ⟨⟨t1, ht1⟩, hr1, ha1⟩ := ih _ _ _ _ h1
              obtain ⟨⟨t2, ht2⟩, hr2, ha2⟩ := ih _ _ _ _ h2
              exact ⟨⟨t1 ++ t2, by rw [ht2, ht1, List.append_assoc]⟩,
                le_trans hr1 hr2, ha2.trans ha1⟩
      · obtain ⟨rfl, rfl⟩ : st = st' ∧ [Ev.done r] = tr := by simpa using h
        exact ⟨⟨[], by simp⟩, le_refl _, rfl⟩
    | cmds cs =>
      cases cs with
      | nil =>
        obtain ⟨rfl, rfl⟩ : st = st' ∧ ([] : List Ev) = tr := by
          simpa [run] using h
        exact ⟨⟨[], by simp⟩, le_refl _, rfl⟩
      | cons c cs =>
        cases c with
        | log k =>
          simp only [run] at h
          split at h
          · exact absurd h (by simp)
          · rename_i a b heq
            obtain ⟨rfl, rfl⟩ : a = st' ∧ Ev.log k :: b = tr := by simpa using h
            exact ih _ _ _ _ heq
        | sub s =>
          simp only [run] at h
          obtain ⟨⟨t, ht⟩, hr, ha⟩ := ih _ _ _ _ h
          exact ⟨⟨s :: t, by simpa [List.append_assoc] using ht⟩, hr, ha⟩
        | persist key =>
          simp only [run] at h
          split at h
          · rename_i j hj
            split at h
            · exact absurd h (by simp)
            · rename_i a b heq
              obtain ⟨rfl, rfl⟩ : a = st' ∧ Ev.write key :: b = tr := by
                simpa using h
              obtain ⟨⟨t, ht⟩, hr, ha⟩ := ih _ _ _ _ heq
              exact ⟨⟨t, by simpa using ht⟩, by simpa using hr, by simpa using ha⟩
          · exact ih _ _ _ _ h
        | setc v =>
          simp only [run] at h
          split at h
          · exact absurd h (by simp)
          · rename_i st1 tr1 h1
            split at h
            · exact absurd h (by simp)
            · rename_i st2 tr2 h2
              obtain ⟨rfl, rfl⟩ : st2 = st' ∧ tr1 ++ tr2 = tr := by simpa using h
              obtain ⟨⟨t1, ht1⟩, hr1, ha1⟩ := ih _ _ _ _ h1
              obtain ⟨⟨t2, ht2⟩, hr2, ha2⟩ := ih _ _ _ _ h2
              exact ⟨⟨t1 ++ t2, by rw [ht2, ht1, List.append_assoc]⟩,
                le_trans hr1 hr2, ha2.trans ha1⟩
        | ifEq v thn els =>
          simp only [run] at h
          split at h
          · exact ih _ _ _ _ h
          · exact ih _ _ _ _ h


@[simp] theorem invsOf_nil (r : Nat) : invsOf r [] = [] := rfl

@[simp] theorem invsOf_cons_start (r s : Nat) (tr : List Ev) :
    invsOf r (Ev.start s :: tr) = invsOf r tr := by
  simp [invsOf, List.filterMap_cons]

@[simp] theorem invsOf_cons_done (r s : Nat) (tr : List Ev) :
    invsOf r (Ev.done s :: tr) = invsOf r tr := by
  simp [invsOf, List.filterMap_cons]

@[simp] theorem invsOf_cons_log (r k : Nat) (tr : List Ev) :
    invsOf r (Ev.log k :: tr) = invsOf r tr := by
  simp [invsOf, List.filterMap_cons]

@[simp] theorem invsOf_cons_write (r : Nat) (k : String) (tr : List Ev) :
    invsOf r (Ev.write k :: tr) = invsOf r tr := by
  simp [invsOf, List.filterMap_cons]

@[simp] theorem invsOf_cons_inv (r r' i : Nat) (tr : List Ev) :
    invsOf r (Ev.inv r' i :: tr) =
      if r' = r then i :: invsOf r tr else invsOf r tr := by
  simp only [invsOf, List.filterMap_cons]
  split <;> simp_all

@[simp] theorem invsOf_append (r : Nat) (a b : List Ev) :
    invsOf r (a ++ b) = invsOf r a ++ invsOf r b :=
  List.filterMap_append _ _ _

/-- Which subscriber indices each notification round invokes.  The round
freshly identified as `st.rounds` by a `set` call invokes exactly the
indices `0 .. N-1` (where `N` is the subscriber count when the round
starts), in order; no nested work re-enters an already-running round. -/
theorem run_invs {α : Type} [DecidableEq α] (enc : α → Option String) :
    ∀ fuel : Nat,
      (∀ (cs : List (Cmd α)) st st' tr,
        run enc fuel (Job.cmds cs) st = some (st', tr) →
        ∀ r, r < st.rounds → invsOf r tr = []) ∧
      (∀ (v : α) st st' tr, run enc fuel (Job.doSet v) st = some (st', tr) →
        invsOf st.rounds tr = List.range st.subscribers.length ∧
        ∀ r, r < st.rounds → invsOf r tr = []) ∧
      (∀ ri i n (st st' : SignalInner α) tr,
        run enc fuel (Job.round ri i n) st = some (st', tr) →
        ri < st.rounds →
        invsOf ri tr = List.range' i (n - i) ∧
        ∀ r, r < st.rounds → r ≠ ri → invsOf r tr = []) := by
  intro fuel
  induction fuel with
  | zero =>
    refine ⟨?_, ?_, ?_⟩
    · intro cs st st' tr h; simp [run] at h
    · intro v st st' tr h; simp [run] at h
    · intro ri i n st st' tr h; simp [run] at h
  | succ fuel ih =>
    obtain ⟨ihc, ihs, ihr⟩ := ih
    refine ⟨?_, ?_, ?_⟩
    · -- cmds
      intro cs st st' tr h r hr
      cases cs with
      | nil =>
        obtain ⟨rfl, rfl⟩ : st = st' ∧ ([] : List Ev) = tr := by
          simpa [run] using h
        simp
      | cons c cs =>
        cases c with
        | log k =>
          simp only [run] at h
          split at h
          · exact absurd h (by simp)
          · rename_i a b heq
            obtain ⟨rfl, rfl⟩ : a = st' ∧ Ev.log k :: b = tr := by simpa using h
            simpa using ihc _ _ _ _ heq r hr
        | sub s =>
          simp only [run] at h
          exact ihc _ _ _ _ h r hr
        | persist key =>
          simp only [run] at h
          split at h
          · rename_i j hj
            split at h
            · exact absurd h (by simp)
            · rename_i a b heq
              obtain ⟨rfl, rfl⟩ : a = st' ∧ Ev.write key :: b = tr := by
                simpa using h
              simpa using ihc _ _ _ _ heq r hr
          · exact ihc _ _ _ _ h r hr
        | setc v =>
          simp only [run] at h
          split at h
          · exact absurd h (by simp)
          · rename_i st1 tr1 h1
            split at h
            · exact absurd h (by simp)
            · rename_i st2 tr2 h2
              obtain ⟨rfl, rfl⟩ : st2 = st' ∧ tr1 ++ tr2 = tr := by simpa using h
              have hr1 : st.rounds ≤ st1.rounds := (run_mono enc _ _ _ _ _ h1).2.1
              rw [invsOf_append, (ihs _ _ _ _ h1).2 r hr,
                ihc _ _ _ _ h2 r (lt_of_lt_of_le hr hr1)]
              simp
        | ifEq v thn els =>
          simp only [run] at h
          split at h
          · exact ihc _ _ _ _ h r hr
          · exact ihc _ _ _ _ h r hr
    · -- doSet
      intro v st st' tr h
      simp only [run] at h
      split at h
      · exact absurd h (by simp)
      · rename_i a b heq
        obtain ⟨rfl, rfl⟩ : a = st' ∧ Ev.start st.rounds :: b = tr := by
          simpa using h
        have hlt : st.rounds < st.rounds + 1 := Nat.lt_succ_self _
        have hround := ihr _ _ _ _ _ _ heq (by simp)
        constructor
        · rw [invsOf_cons_start, hround.1, List.range_eq_range']
          simp
        · intro r hr
          rw [invsOf_cons_start]
          exact hround.2 r (by simpa using lt_trans hr hlt)
            (Nat.ne_of_lt hr)
    · -- round
      intro ri i n st st' tr h hri
      simp only [run] at h
      split at h
      · rename_i hin
        split at h
        · exact absurd h (by simp)
        · rename_i cb hcb
          split at h
          · exact absurd h (by simp)
          · rename_i st1 tr1 h1
            split at h
            · exact absurd h (by simp)
            · rename_i st2 tr2 h2
              obtain ⟨rfl, rfl⟩ : st2 = st' ∧ Ev.inv ri i :: (tr1 ++ tr2) = tr := by
                simpa using h
              have hr1 : st.rounds ≤ st1.rounds := (run_mono enc _ _ _ _ _ h1).2.1
              have hrec := ihr _ _ _ _ _ _ h2 (lt_of_lt_of_le hri hr1)
              constructor
              · rw [invsOf_cons_inv, if_pos rfl, invsOf_append,
                  ihc _ _ _ _ h1 ri hri, hrec.1]
                have hn : n - i = (n - (i + 1)) + 1 := by omega
                rw [hn, List.range'_succ]
                simp
              · intro r hr hne
                rw [invsOf_cons_inv, if_neg (fun hh => hne hh.symm), invsOf_append,
                  ihc _ _ _ _ h1 r hr,
                  hrec.2 r (lt_of_lt_of_le hr hr1) hne]
                simp
      · rename_i hin
        obtain ⟨rfl, rfl⟩ : st = st' ∧ [Ev.done ri] = tr := by simpa using h
        constructor
        · have : n - i = 0 := by omega
          simp [this]
        · intro r hr hne
          simp


theorem nestCheck_append : ∀ (a b : List Ev) (stk : List Nat),
    nestCheck (a ++ b) stk = (nestCheck a stk).bind fun stk' => nestCheck b stk' := by
  intro a
  induction a with
  | nil => intro b stk; simp [nestCheck]
  | cons e a ih =>
    intro b stk
    cases e with
    | start r => simpa [nestCheck] using ih b (r :: stk)
    | done r =>
      cases stk with
      | nil => simp [nestCheck]
      | cons r' stk' =>
        by_cases h : r = r' <;> simp [nestCheck, h, ih]
    | inv r i =>
      cases stk with
      | nil => simp [nestCheck]
      | cons r' stk' =>
        by_cases h : r = r' <;> simp [nestCheck, h, ih]
    | log k => simp [nestCheck, ih]
    | write k => simp [nestCheck, ih]

/-- Well-nestedness of the notification protocol: the trace of any work item
respects the stack discipline of `nestCheck` — every nested `set` call runs
its whole round before the enclosing round resumes. -/
theorem run_nest {α : Type} [DecidableEq α] (enc : α → Option String) :
    ∀ fuel : Nat,
      (∀ (cs : List (Cmd α)) st st' tr,
        run enc fuel (Job.cmds cs) st = some (st', tr) →
        ∀ stk, nestCheck tr stk = some stk) ∧
      (∀ (v : α) st st' tr, run enc fuel (Job.doSet v) st = some (st', tr) →
        ∀ stk, nestCheck tr stk = some stk) ∧
      (∀ r i n (st st' : SignalInner α) tr,
        run enc fuel (Job.round r i n) st = some (st', tr) →
        ∀ stk, nestCheck tr (r :: stk) = some stk) := by
  intro fuel
  induction fuel with
  | zero =>
    refine ⟨?_, ?_, ?_⟩
    · intro cs st st' tr h; simp [run] at h
    · intro v st st' tr h; simp [run] at h
    · intro r i n st st' tr h; simp [run] at h
  | succ fuel ih =>
    obtain ⟨ihc, ihs, ihr⟩ := ih
    refine ⟨?_, ?_, ?_⟩
    · intro cs st st' tr h stk
      cases cs with
      | nil =>
        obtain ⟨rfl, rfl⟩ : st = st' ∧ ([] : List Ev) = tr := by
          simpa [run] using h
        simp [nestCheck]
      | cons c cs =>
        cases c with
        | log k =>
          simp only [run] at h
          split at h
          · exact absurd h (by simp)
          · rename_i a b heq
            obtain ⟨rfl, rfl⟩ : a = st' ∧ Ev.log k :: b = tr := by simpa using h
            simpa [nestCheck] using ihc _ _ _ _ heq stk
        | sub s =>
          simp only [run] at h
          exact ihc _ _ _ _ h stk
        | persist key =>
          simp only [run] at h
          split at h
          · rename_i j hj
            split at h
            · exact absurd h (by simp)
            · rename_i a b heq
              obtain ⟨rfl, rfl⟩ : a = st' ∧ Ev.write key :: b = tr := by
                simpa using h
              simpa [nestCheck] using ihc _ _ _ _ heq stk
          · exact ihc _ _ _ _ h stk
        | setc v =>
          simp only [run] at h
          split at h
          · exact absurd h (by simp)
          · rename_i st1 tr1 h1
            split at h
            · exact absurd h (by simp)
            · rename_i st2 tr2 h2
              obtain ⟨rfl, rfl⟩ : st2 = st' ∧ tr1 ++ tr2 = tr := by simpa using h
              rw [nestCheck_append, ihs _ _ _ _ h1 stk]
              exact ihc _ _ _ _ h2 stk
        | ifEq v thn els =>
          simp only [run] at h
          split at h
          · exact ihc _ _ _ _ h stk
          · exact ihc _ _ _ _ h stk
    · intro v st st' tr h stk
      simp only [run] at h
      split at h
      · exact absurd h (by simp)
      · rename_i a b heq
        obtain ⟨rfl, rfl⟩ : a = st' ∧ Ev.start st.rounds :: b = tr := by
          simpa using h
        simpa [nestCheck] using ihr _ _ _ _ _ _ heq stk
    · intro r i n st st' tr h stk
      simp only [run] at h
      split at h
      · split at h
        · exact absurd h (by simp)
        · rename_i cb hcb
          split at h
          · exact absurd h (by simp)
          · rename_i st1 tr1 h1
            split at h
            · exact absurd h (by simp)
            · rename_i st2 tr2 h2
              obtain ⟨rfl, rfl⟩ : st2 = st' ∧ Ev.inv r i :: (tr1 ++ tr2) = tr := by
                simpa using h
              simp only [nestCheck, if_pos rfl]
              rw [nestCheck_append, ihc _ _ _ _ h1 (r :: stk)]
              exact ihr _ _ _ _ _ _ h2 stk
      · obtain ⟨rfl, rfl⟩ : st = st' ∧ [Ev.done r] = tr := by simpa using h
        simp [nestCheck]

@[simp] theorem startsOf_nil : startsOf [] = [] := rfl

@[simp] theorem startsOf_cons_start (s : Nat) (tr : List Ev) :
    startsOf (Ev.start s :: tr) = s :: startsOf tr := by
  simp [startsOf, List.filterMap_cons]

@[simp] theorem startsOf_cons_done (s : Nat) (tr : List Ev) :
    startsOf (Ev.done s :: tr) = startsOf tr := by
  simp [startsOf, List.filterMap_cons]

@[simp] theorem startsOf_cons_inv (r i : Nat) (tr : List Ev) :
    startsOf (Ev.inv r i :: tr) = startsOf tr := by
  simp [startsOf, List.filterMap_cons]

@[simp] theorem startsOf_cons_log (k : Nat) (tr : List Ev) :
    startsOf (Ev.log k :: tr) = startsOf tr := by
  simp [startsOf, List.filterMap_cons]

@[simp] theorem startsOf_cons_write (k : String) (tr : List Ev) :
    startsOf (Ev.write k :: tr) = startsOf tr := by
  simp [startsOf, List.filterMap_cons]

@[simp] theorem startsOf_append (a b : List Ev) :
    startsOf (a ++ b) = startsOf a ++ startsOf b :=
  List.filterMap_append _ _ _

/-- Every notification round started inside a work item has an identifier at
least as large as the ghost counter on entry (round identifiers are fresh). -/
theorem run_starts {α : Type} [DecidableEq α] (enc : α → Option String) :
    ∀ fuel (job : Job α) st st' tr, run enc fuel job st = some (st', tr) →
      ∀ s ∈ startsOf tr, st.rounds ≤ s := by
  intro fuel
  induction fuel with
  | zero => intro job st st' tr h; simp [run] at h
  | succ fuel ih =>
    intro job st st' tr h
    cases job with
    | doSet v =>
      simp only [run] at h
      split at h
      · exact absurd h (by simp)
      · rename_i a b heq
        obtain ⟨rfl, rfl⟩ : a = st' ∧ Ev.start st.rounds :: b = tr := by
          simpa using h
        intro s hs
        rw [startsOf_cons_start] at hs
        rcases List.mem_cons.mp hs with rfl | hs
        · exact le_refl _
        · exact le_trans (Nat.le_succ _) (ih _ _ _ _ heq s (by simpa using hs))
    | round r i n =>
      simp only [run] at h
      split at h
      · split at h
        · exact absurd h (by simp)
        · rename_i cb hcb
          split at h
          · exact absurd h (by simp)
          · rename_i st1 tr1 h1
            split at h
            · exact absurd h (by simp)
            · rename_i st2 tr2 h2
              obtain ⟨rfl, rfl⟩ : st2 = st' ∧ Ev.inv r i :: (tr1 ++ tr2) = tr := by
                simpa using h
              intro s hs
              rw [startsOf_cons_inv, startsOf_append] at hs
              rcases List.mem_append.mp hs with hs | hs
              · exact ih _ _ _ _ h1 s hs
              · exact le_trans (run_mono enc _ _ _ _ _ h1).2.1
                  (ih _ _ _ _ h2 s hs)
      · obtain ⟨rfl, rfl⟩ : st = st' ∧ [Ev.done r] = tr := by simpa using h
        intro s hs; simp at hs
    | cmds cs =>
      cases cs with
      | nil =>
        obtain ⟨rfl, rfl⟩ : st = st' ∧ ([] : List Ev) = tr := by
          simpa [run] using h
        intro s hs; simp at hs
      | cons c cs =>
        cases c with
        | log k =>
          simp only [run] at h
          split at h
          · exact absurd h (by simp)
          · rename_i a b heq
            obtain ⟨rfl, rfl⟩ : a = st' ∧ Ev.log k :: b = tr := by simpa using h
            intro s hs
            exact ih _ _ _ _ heq s (by simpa using hs)
        | sub s0 =>
          simp only [run] at h
          exact fun s hs => ih _ _ _ _ h s hs
        | persist key =>
          simp only [run] at h
          split at h
          · rename_i j hj
            split at h
            · exact absurd h (by simp)
            · rename_i a b heq
              obtain ⟨rfl, rfl⟩ : a = st' ∧ Ev.write key :: b = tr := by
                simpa using h
              intro s hs
              exact ih _ _ _ _ heq s (by simpa using hs)
          · exact fun s hs => ih _ _ _ _ h s hs
        | setc v =>
          simp only [run] at h
          split at h
          · exact absurd h (by simp)
          · rename_i st1 tr1 h1
            split at h
            · exact absurd h (by simp)
            · rename_i st2 tr2 h2
              obtain ⟨rfl, rfl⟩ : st2 = st' ∧ tr1 ++ tr2 = tr := by simpa using h
              intro s hs
              rcases List.mem_append.mp (by simpa using hs) with hs | hs
              · exact ih _ _ _ _ h1 s hs
              · exact le_trans (run_mono enc _ _ _ _ _ h1).2.1
                  (ih _ _ _ _ h2 s hs)
        | ifEq v thn els =>
          simp only [run] at h
          split at h
          · exact fun s hs => ih _ _ _ _ h s hs
          · exact fun s hs => ih _ _ _ _ h s hs


@[simp] theorem lookupKV_cons (k key j : String) (s : List (String × String)) :
    lookupKV ((key, j) :: s) k = if k = key then some j else lookupKV s k := rfl

/-- Unfolding a successful `set`: one round is started with the fresh
identifier `st.rounds`, on the state whose value has already been replaced
by `v`, with the bound captured as the current subscriber count. -/
theorem run_doSet_elim {α : Type} [DecidableEq α] (enc : α → Option String)
    (fuel : Nat) (v : α) (st st' : SignalInner α) (tr : List Ev)
    (h : run enc fuel (Job.doSet v) st = some (st', tr)) :
    ∃ fuel' tr', fuel = fuel' + 1 ∧
      run enc fuel' (Job.round st.rounds 0 st.subscribers.length)
        { st with value := v, rounds := st.rounds + 1 } = some (st', tr') ∧
      tr = Ev.start st.rounds :: tr' := by
  cases fuel with
  | zero => simp [run] at h
  | succ fuel =>
    simp only [run] at h
    split at h
    · exact absurd h (by simp)
    · rename_i a b heq
      obtain ⟨rfl, rfl⟩ : a = st' ∧ Ev.start st.rounds :: b = tr := by
        simpa using h
      exact ⟨fuel, b, rfl, heq, rfl⟩

/-- A completed `set` strictly increases the ghost round counter. -/
theorem run_doSet_lt {α : Type} [DecidableEq α] (enc : α → Option String)
    (fuel : Nat) (v : α) (st st' : SignalInner α) (tr : List Ev)
    (h : run enc fuel (Job.doSet v) st = some (st', tr)) :
    st.rounds < st'.rounds := by
  obtain ⟨fuel', tr', rfl, hrun, rfl⟩ := run_doSet_elim enc fuel v st st' tr h
  have := (run_mono enc _ _ _ _ _ hrun).2.1
  simpa using this

/-- Unfolding one iteration of the notification loop. -/
theorem run_round_elim {α : Type} [DecidableEq α] (enc : α → Option String)
    (fuel r i n : Nat) (st st' : SignalInner α) (tr : List Ev)
    (h : run enc fuel (Job.round r i n) st = some (st', tr)) (hin : i < n) :
    ∃ fuel' cb st1 tr1 tr2, fuel = fuel' + 1 ∧
      st.subscribers[i]? = some cb ∧
      run enc fuel' (Job.cmds cb) st = some (st1, tr1) ∧
      run enc fuel' (Job.round r (i + 1) n) st1 = some (st', tr2) ∧
      tr = Ev.inv r i :: (tr1 ++ tr2) := by
  cases fuel with
  | zero => simp [run] at h
  | succ fuel =>
    simp only [run, if_pos hin] at h
    split at h
    · exact absurd h (by simp)
    · rename_i cb hcb
      split at h
      · exact absurd h (by simp)
      · rename_i st1 tr1 h1
        split at h
        · exact absurd h (by simp)
        · rename_i st2 tr2 h2
          obtain ⟨rfl, rfl⟩ : st2 = st' ∧ Ev.inv r i :: (tr1 ++ tr2) = tr := by
            simpa using h
          exact ⟨fuel, cb, st1, tr1, tr2, rfl, hcb, h1, h2, rfl⟩

/-- A work item that allocates no new notification round (the ghost counter
comes back unchanged) leaves the value untouched, and can only have changed
the external storage by writing the serialization of the (unchanged) current
value under some keys. -/
theorem run_const {α : Type} [DecidableEq α] (enc : α → Option String) :
    ∀ fuel : Nat,
      (∀ (cs : List (Cmd α)) st st' tr,
        run enc fuel (Job.cmds cs) st = some (st', tr) →
        st'.rounds = st.rounds →
        st'.value = st.value ∧
        ∀ k, lookupKV st'.storage k = lookupKV st.storage k ∨
          (st.avail = true ∧
            ∃ j, enc st.value = some j ∧ lookupKV st'.storage k = some j)) ∧
      (∀ r i n (st st' : SignalInner α) tr,
        run enc fuel (Job.round r i n) st = some (st', tr) →
        st'.rounds = st.rounds →
        st'.value = st.value ∧
        ∀ k, lookupKV st'.storage k = lookupKV st.storage k ∨
          (st.avail = true ∧
            ∃ j, enc st.value = some j ∧ lookupKV st'.storage k = some j)) := by
  intro fuel
  induction fuel with
  | zero =>
    refine ⟨?_, ?_⟩
    · intro cs st st' tr h; simp [run] at h
    · intro r i n st st' tr h; simp [run] at h
  | succ fuel ih =>
    obtain ⟨ihc, ihr⟩ := ih
    refine ⟨?_, ?_⟩
    · intro cs st st' tr h hrd
      cases cs with
      | nil =>
        obtain ⟨rfl, rfl⟩ : st = st' ∧ ([] : List Ev) = tr := by
          simpa [run] using h
        exact ⟨rfl, fun k => Or.inl rfl⟩
      | cons c cs =>
        cases c with
        | log k0 =>
          simp only [run] at h
          split at h
          · exact absurd h (by simp)
          · rename_i a b heq
            obtain ⟨rfl, rfl⟩ : a = st' ∧ Ev.log k0 :: b = tr := by simpa using h
            exact ihc _ _ _ _ heq hrd
        | sub s =>
          simp only [run] at h
          have := ihc _ _ _ _ h (by simpa using hrd)
          exact ⟨by simpa using this.1, by simpa using this.2⟩
        | persist key =>
          simp only [run] at h
          split at h
          · rename_i j hj
            have hav : st.avail = true := by
              by_contra hf
              simp [Bool.not_eq_true] at hf
              simp [hf] at hj
            rw [hav, if_pos rfl] at hj
            split at h
            · exact absurd h (by simp)
            · rename_i a b heq
              obtain ⟨rfl, rfl⟩ : a = st' ∧ Ev.write key :: b = tr := by
                simpa using h
              obtain ⟨hv, hs⟩ := ihc _ _ _ _ heq (by simpa using hrd)
              refine ⟨by simpa using hv, fun k => ?_⟩
              rcases hs k with hk | ⟨hav', j', hj', hk⟩
              · simp only [lookupKV_cons] at hk
                by_cases hkk : k = key
                · exact Or.inr ⟨hav, j, hj, by simpa [hkk] using hk⟩
                · exact Or.inl (by simpa [hkk] using hk)
              · exact Or.inr ⟨hav, j', by simpa using hj', hk⟩
          · exact ihc _ _ _ _ h hrd
        | setc v =>
          simp only [run] at h
          split at h
          · exact absurd h (by simp)
          · rename_i st1 tr1 h1
            split at h
            · exact absurd h (by simp)
            · rename_i st2 tr2 h2
              obtain ⟨rfl, rfl⟩ : st2 = st' ∧ tr1 ++ tr2 = tr := by simpa using h
              have hlt := run_doSet_lt enc _ _ _ _ _ h1
              have hle := (run_mono enc _ _ _ _ _ h2).2.1
              omega
        | ifEq v thn els =>
          simp only [run] at h
          split at h
          · exact ihc _ _ _ _ h hrd
          · exact ihc _ _ _ _ h hrd
    · intro r i n st st' tr h hrd
      rcases Nat.lt_or_ge i n with hin | hin
      · obtain ⟨fuel', cb, st1, tr1, tr2, hf, hcb, h1, h2, rfl⟩ :=
          run_round_elim enc _ r i n st st' tr h hin
        obtain ⟨rfl⟩ : fuel = fuel' := by omega
        have hm1 := run_mono enc _ _ _ _ _ h1
        have hm2 := run_mono enc _ _ _ _ _ h2
        have hrd1 : st1.rounds = st.rounds := by omega
        have hrd2 : st'.rounds = st1.rounds := by omega
        obtain ⟨hv1, hs1⟩ := ihc _ _ _ _ h1 hrd1
        obtain ⟨hv2, hs2⟩ := ihr _ _ _ _ _ _ h2 hrd2
        refine ⟨hv2.trans hv1, fun k => ?_⟩
        rcases hs2 k with hk | ⟨hav, j, hj, hk⟩
        · rcases hs1 k with hk' | ⟨hav, j, hj, hk'⟩
          · exact Or.inl (hk.trans hk')
          · exact Or.inr ⟨hav, j, hj, hk.trans hk'⟩
        · exact Or.inr ⟨hm1.2.2 ▸ hav, j, hv1 ▸ hj, hk⟩
      · have hnot : ¬ i < n := by omega
        simp only [run, if_neg hnot] at h
        obtain ⟨rfl, rfl⟩ : st = st' ∧ [Ev.done r] = tr := by simpa using h
        exact ⟨rfl, fun k => Or.inl rfl⟩

/-- When the storage is unavailable, or serialization always fails, no run
changes the stored data at all (failed persistence is silently dropped). -/
theorem run_persist_noop {α : Type} [DecidableEq α] (enc : α → Option String) :
    ∀ fuel (job : Job α) st st' tr, run enc fuel job st = some (st', tr) →
      (st.avail = false ∨ ∀ u, enc u = none) → st'.storage = st.storage := by
  intro fuel
  induction fuel with
  | zero => intro job st st' tr h; simp [run] at h
  | succ fuel ih =>
    intro job st st' tr h hfail
    cases job with
    | doSet v =>
      simp only [run] at h
      split at h
      · exact absurd h (by simp)
      · rename_i a b heq
        obtain ⟨rfl, rfl⟩ : a = st' ∧ Ev.start st.rounds :: b = tr := by
          simpa using h
        have := ih _ _ _ _ heq (by simpa using hfail)
        simpa using this
    | round r i n =>
      simp only [run] at h
      split at h
      · split at h
        · exact absurd h (by simp)
        · rename_i cb hcb
          split at h
          · exact absurd h (by simp)
          · rename_i st1 tr1 h1
            split at h
            · exact absurd h (by simp)
            · rename_i st2 tr2 h2
              obtain ⟨rfl, rfl⟩ : st2 = st' ∧ Ev.inv r i :: (tr1 ++ tr2) = tr := by
                simpa using h
              have hs1 := ih _ _ _ _ h1 hfail
              have hfail1 : st1.avail = false ∨ ∀ u, enc u = none := by
                rcases hfail with hf | hf
                · exact Or.inl ((run_mono enc _ _ _ _ _ h1).2.2.trans hf)
                · exact Or.inr hf
              exact (ih _ _ _ _ h2 hfail1).trans hs1
      · obtain ⟨rfl, rfl⟩ : st = st' ∧ [Ev.done r] = tr := by simpa using h
        rfl
    | cmds cs =>
      cases cs with
      | nil =>
        obtain ⟨rfl, rfl⟩ : st = st' ∧ ([] : List Ev) = tr := by
          simpa [run] using h
        rfl
      | cons c cs =>
        cases c with
        | log k =>
          simp only [run] at h
          split at h
          · exact absurd h (by simp)
          · rename_i a b heq
            obtain ⟨rfl, rfl⟩ : a = st' ∧ Ev.log k :: b = tr := by simpa using h
            exact ih _ _ _ _ heq hfail
        | sub s =>
          simp only [run] at h
          have := ih _ _ _ _ h (by simpa using hfail)
          simpa using this
        | persist key =>
          simp only [run] at h
          split at h
          · rename_i j hj
            exfalso
            rcases hfail with hf | hf
            · simp [hf] at hj
            · cases hav : st.avail <;> simp [hav, hf] at hj
          · exact ih _ _ _ _ h hfail
        | setc v =>
          simp only [run] at h
          split at h
          · exact absurd h (by simp)
          · rename_i st1 tr1 h1
            split at h
            · exact absurd h (by simp)
            · rename_i st2 tr2 h2
              obtain ⟨rfl, rfl⟩ : st2 = st' ∧ tr1 ++ tr2 = tr := by simpa using h
              have hs1 := ih _ _ _ _ h1 hfail
              have hfail1 : st1.avail = false ∨ ∀ u, enc u = none := by
                rcases hfail with hf | hf
                · exact Or.inl ((run_mono enc _ _ _ _ _ h1).2.2.trans hf)
                · exact Or.inr hf
              exact (ih _ _ _ _ h2 hfail1).trans hs1
        | ifEq v thn els =>
          simp only [run] at h
          split at h
          · exact ih _ _ _ _ h hfail
          · exact ih _ _ _ _ h hfail


/-- The in-memory part of a cell state: current value, subscriber list and
ghost round counter — everything except the external storage world. -/
def memPart {α : Type} (st : SignalInner α) :
    α × List (List (Cmd α)) × Nat :=
  (st.value, st.subscribers, st.rounds)

/-- Persistence is fire-and-forget: starting from two states that agree on
the in-memory part (and may differ arbitrarily in storage contents and in
storage availability), a run from the first succeeds exactly when the run
from the second does, with in-memory-equal results — storage/serialization
failures never affect the cell itself. -/
theorem run_indep {α : Type} [DecidableEq α] (enc : α → Option String) :
    ∀ fuel (job : Job α) st1 st2, memPart st1 = memPart st2 →
      ∀ st1' tr1, run enc fuel job st1 = some (st1', tr1) →
        ∃ st2' tr2, run enc fuel job st2 = some (st2', tr2) ∧
          memPart st1' = memPart st2' := by
  intro fuel
  induction fuel with
  | zero => intro job st1 st2 hmem st1' tr1 h; simp [run] at h
  | succ fuel ih =>
    intro job st1 st2 hmem st1' tr1 h
    have hv : st1.value = st2.value := congrArg (fun p => p.1) hmem
    have hs : st1.subscribers = st2.subscribers := congrArg (fun p => p.2.1) hmem
    have hr : st1.rounds = st2.rounds := congrArg (fun p => p.2.2) hmem
    cases job with
    | doSet v =>
      simp only [run] at h ⊢
      split at h
      · exact absurd h (by simp)
      · rename_i a b heq
        obtain ⟨rfl, rfl⟩ : a = st1' ∧ Ev.start st1.rounds :: b = tr1 := by
          simpa using h
        rw [hs, hr] at heq
        obtain ⟨b2, tr2, hY, hab⟩ := ih _ _
          { st2 with value := v, rounds := st2.rounds + 1 }
          (by simp [memPart]) _ _ heq
        rw [hY]
        exact ⟨b2, Ev.start st2.rounds :: tr2, rfl, hab⟩
    | round r i n =>
      simp only [run] at h ⊢
      split at h
      · rename_i hin
        rw [if_pos hin]
        split at h
        · exact absurd h (by simp)
        · rename_i cb hcb
          rw [hs] at hcb
          rw [hcb]
          split at h
          · exact absurd h (by simp)
          · rename_i stm trm h1
            split at h
            · exact absurd h (by simp)
            · rename_i stm2 trm2 h2
              obtain ⟨rfl, rfl⟩ : stm2 = st1' ∧ Ev.inv r i :: (trm ++ trm2) = tr1 := by
                simpa using h
              obtain ⟨b1, trb1, hY1, hab1⟩ := ih _ _ _ hmem _ _ h1
              obtain ⟨b2, trb2, hY2, hab2⟩ := ih _ _ _ hab1 _ _ h2
              refine ⟨b2, Ev.inv r i :: (trb1 ++ trb2), ?_, hab2⟩
              simp [hY1, hY2]
      · rename_i hin
        rw [if_neg hin]
        obtain ⟨rfl, rfl⟩ : st1 = st1' ∧ [Ev.done r] = tr1 := by simpa using h
        exact ⟨st2, [Ev.done r], rfl, hmem⟩
    | cmds cs =>
      cases cs with
      | nil =>
        obtain ⟨rfl, rfl⟩ : st1 = st1' ∧ ([] : List Ev) = tr1 := by
          simpa [run] using h
        exact ⟨st2, [], by simp [run], hmem⟩
      | cons c cs =>
        cases c with
        | log k =>
          simp only [run] at h ⊢
          split at h
          · exact absurd h (by simp)
          · rename_i a b heq
            obtain ⟨rfl, rfl⟩ : a = st1' ∧ Ev.log k :: b = tr1 := by simpa using h
            obtain ⟨b2, tr2, hY, hab⟩ := ih _ _ _ hmem _ _ heq
            rw [hY]
            exact ⟨b2, Ev.log k :: tr2, rfl, hab⟩
        | sub s =>
          simp only [run] at h ⊢
          exact ih _ _ _ (by simp [memPart, hs, hr, hv]) _ _ h
        | persist key =>
          simp only [run] at h ⊢
          have step : ∀ (stm : SignalInner α) (trm : List Ev),
              memPart stm = memPart st1 →
              run enc fuel (Job.cmds cs) stm = some (st1', trm) →
              ∃ st2' tr2,
                (match (if st2.avail then enc st2.value else none) with
                  | some j =>
                    match run enc fuel (Job.cmds cs)
                        { st2 with storage := (key, j) :: st2.storage } with
                    | none => none
                    | some (st', tr) => some (st', Ev.write key :: tr)
                  | none => run enc fuel (Job.cmds cs) st2) = some (st2', tr2) ∧
                memPart st1' = memPart st2' := by
            intro stm trm hm hrun
            cases hg : (if st2.avail then enc st2.value else none) with
            | none =>
              obtain ⟨b2, tr2, hY, hab⟩ := ih _ _ st2
                (hm.trans hmem) _ _ hrun
              exact ⟨b2, tr2, by rw [hY], hab⟩
            | some j =>
              obtain ⟨b2, tr2, hY, hab⟩ := ih _ _
                { st2 with storage := (key, j) :: st2.storage }
                (by simpa [memPart] using (hm.trans hmem)) _ _ hrun
              refine ⟨b2, Ev.write key :: tr2, ?_, hab⟩
              simp [hY]
          split at h
          · rename_i j hj
            split at h
            · exact absurd h (by simp)
            · rename_i a b heq
              obtain ⟨rfl, rfl⟩ : a = st1' ∧ Ev.write key :: b = tr1 := by
                simpa using h
              exact step _ _ (by simp [memPart]) heq
          · exact step _ _ rfl h
        | setc v =>
          simp only [run] at h ⊢
          split at h
          · exact absurd h (by simp)
          · rename_i stm trm h1
            split at h
            · exact absurd h (by simp)
            · rename_i stm2 trm2 h2
              obtain ⟨rfl, rfl⟩ : stm2 = st1' ∧ trm ++ trm2 = tr1 := by
                simpa using h
              obtain ⟨b1, trb1, hY1, hab1⟩ := ih _ _ _ hmem _ _ h1
              obtain ⟨b2, trb2, hY2, hab2⟩ := ih _ _ _ hab1 _ _ h2
              refine ⟨b2, trb1 ++ trb2, ?_, hab2⟩
              simp [hY1, hY2]
        | ifEq v thn els =>
          simp only [run] at h ⊢
          rw [← hv]
          split at h
          · rename_i hveq
            rw [if_pos hveq]
            exact ih _ _ _ hmem _ _ h
          · rename_i hveq
            rw [if_neg hveq]
            exact ih _ _ _ hmem _ _ h


/-- Result of `set 1` on `exNested`: the nested round ran to completion. -/
def exNestedOut : SignalInner Nat :=
  { value := 2,
    subscribers := [[Cmd.ifEq 1 [Cmd.setc 2] []], [Cmd.log 7]],
    storage := [], avail := false, rounds := 2 }

/-- Trace of `set 1` on `exNested`: the nested round (id 1) triggered by
subscriber 0 completes before the outer round (id 0) reaches subscriber 1. -/
def exNestedTr : List Ev :=
  [Ev.start 0, Ev.inv 0 0, Ev.start 1, Ev.inv 1 0, Ev.inv 1 1, Ev.log 7,
   Ev.done 1, Ev.inv 0 1, Ev.log 7, Ev.done 0]

/-- C1: `set(v)` replaces the stored value unconditionally (for every `v`,
also when `v` equals the prior value — nothing is deduplicated), then runs
exactly one notification round: the trace opens with that round's start,
exactly one round with its identifier is ever started, and the round
invokes precisely the subscribers at indices `0..N` (`N` being the
subscriber count captured at the start of the round), in registration
order, each exactly once — so a subscriber appended during the round
(index `≥ N`) is not invoked in it.  When the round triggers no nested
`set` (exactly the one round is allocated), the cell's value afterwards is
`v`. -/
theorem claim_C1_set_round {α : Type} [DecidableEq α] (enc : α → Option String)
    (fuel : Nat) (v : α) (st st' : SignalInner α) (tr : List Ev)
    (h : Signal.set enc fuel v st = some (st', tr)) :
    tr.head? = some (Ev.start st.rounds) ∧
    (startsOf tr).count st.rounds = 1 ∧
    invsOf st.rounds tr = List.range st.subscribers.length ∧
    (st'.rounds = st.rounds + 1 → st'.value = v) := by
  have h' : run enc fuel (Job.doSet v) st = some (st', tr) := h
  obtain ⟨fuel', tr', rfl, hrun, rfl⟩ := run_doSet_elim enc _ v st st' tr h'
  refine ⟨rfl, ?_, ?_, ?_⟩
  · rw [startsOf_cons_start, List.count_cons_self]
    have hz : (startsOf tr').count st.rounds = 0 := by
      rw [List.count_eq_zero]
      intro hmem
      have hge := run_starts enc _ _ _ _ _ hrun _ hmem
      simp at hge
    rw [hz]
  · rw [invsOf_cons_start]
    have hiv := ((run_invs enc fuel').2.2 st.rounds 0 st.subscribers.length
      _ _ _ hrun (by simp)).1
    rw [hiv, List.range_eq_range']
    simp
  · intro hrd
    have hc := ((run_const enc fuel').2 st.rounds 0 st.subscribers.length
      _ _ _ hrun (by simp [hrd])).1
    simpa using hc

/-- Witness for C1 on a concrete cell: setting the value `5` a cell already
holds still invokes both subscribers, once each, in order. -/
theorem claim_C1_set_round_witness :
    Signal.set encNone 10 5 exSubsLog =
      some ({ value := 5, subscribers := [[Cmd.log 1], [Cmd.log 2]],
              storage := [], avail := false, rounds := 1 },
        [Ev.start 0, Ev.inv 0 0, Ev.log 1, Ev.inv 0 1, Ev.log 2, Ev.done 0]) ∧
    ([Ev.start 0, Ev.inv 0 0, Ev.log 1, Ev.inv 0 1, Ev.log 2,
        Ev.done 0].head? = some (Ev.start exSubsLog.rounds) ∧
      (startsOf [Ev.start 0, Ev.inv 0 0, Ev.log 1, Ev.inv 0 1, Ev.log 2,
        Ev.done 0]).count exSubsLog.rounds = 1 ∧
      invsOf exSubsLog.rounds [Ev.start 0, Ev.inv 0 0, Ev.log 1, Ev.inv 0 1,
        Ev.log 2, Ev.done 0] = List.range exSubsLog.subscribers.length ∧
      (({ value := 5, subscribers := [[Cmd.log 1], [Cmd.log 2]],
          storage := [], avail := false,
          rounds := 1 } : SignalInner Nat).rounds = exSubsLog.rounds + 1 →
        ({ value := 5, subscribers := [[Cmd.log 1], [Cmd.log 2]],
           storage := [], avail := false,
           rounds := 1 } : SignalInner Nat).value = 5)) :=
  ⟨rfl, claim_C1_set_round encNone 10 5 exSubsLog _ _ rfl⟩

/-- C2: if a subscriber invoked during a round calls `set` on the same cell,
the nested round invoked synchronously by that inner `set` completes all of
its own subscriber invocations before control returns to the outer round's
remaining subscribers — the whole trace of a `set` obeys the
innermost-round stack discipline of `nestCheck` — and the outer round still
invokes each of its subscribers exactly once, in order: none is skipped or
invoked twice within that round. -/
theorem claim_C2_nested_set_synchronous {α : Type} [DecidableEq α]
    (enc : α → Option String) (fuel : Nat) (v : α) (st st' : SignalInner α)
    (tr : List Ev) (h : Signal.set enc fuel v st = some (st', tr)) :
    nestCheck tr [] = some ([] : List Nat) ∧
    invsOf st.rounds tr = List.range st.subscribers.length := by
  have h' : run enc fuel (Job.doSet v) st = some (st', tr) := h
  exact ⟨(run_nest enc fuel).2.1 v st st' tr h' [],
    ((run_invs enc fuel).2.1 v st st' tr h').1⟩

/-- Witness for C2 on a concrete re-entrant scenario: subscriber 0 of
`exNested` triggers a nested `set 2`; the nested round (id 1) runs both
subscribers and finishes before the outer round (id 0) invokes subscriber
1, and the outer round invokes exactly indices `[0, 1]`. -/
theorem claim_C2_nested_set_synchronous_witness :
    Signal.set encNone 10 1 exNested = some (exNestedOut, exNestedTr) ∧
    (nestCheck exNestedTr [] = some ([] : List Nat) ∧
      invsOf exNested.rounds exNestedTr =
        List.range exNested.subscribers.length) :=
  ⟨rfl, claim_C2_nested_set_synchronous encNone 10 1 exNested exNestedOut
    exNestedTr rfl⟩

/-- C5: the subscriber list is append-only for the cell's lifetime:
`subscribe` appends the callback at the end (returning only the updated
cell — no unsubscribe handle exists); `get` does not touch the state at
all; any execution step (including any `set`) only ever extends the
subscriber list at its end, never removing or reordering existing entries;
and the invocation order of every notification round is registration order
(indices `0, 1, 2, …`). -/
theorem claim_C5_subscribers_append_only {α : Type} [DecidableEq α]
    (enc : α → Option String) :
    (∀ (st : SignalInner α) (f : List (Cmd α)),
      (Signal.subscribe st f).subscribers = st.subscribers ++ [f]) ∧
    (∀ st : SignalInner α, Signal.get st = st.value) ∧
    (∀ fuel (job : Job α) st st' tr, run enc fuel job st = some (st', tr) →
      ∃ t, st'.subscribers = st.subscribers ++ t) ∧
    (∀ fuel (v : α) (st st' : SignalInner α) tr,
      Signal.set enc fuel v st = some (st', tr) →
      invsOf st.rounds tr = List.range st.subscribers.length) := by
  refine ⟨fun st f => rfl, fun st => rfl, ?_, ?_⟩
  · intro fuel job st st' tr h
    exact (run_mono enc fuel job st st' tr h).1
  · intro fuel v st st' tr h
    exact ((run_invs enc fuel).2.1 v st st' tr h).1

/-- Witness for C5: a concrete `subscribe` appends at the end, and a
concrete re-entrant `set` (which appends nothing here but runs nested
rounds) leaves the original subscriber list as a prefix. -/
theorem claim_C5_subscribers_append_only_witness :
    (Signal.subscribe exReentrant [Cmd.log 9]).subscribers =
      exReentrant.subscribers ++ [[Cmd.log 9]] ∧
    (∃ t, exNestedOut.subscribers = exNested.subscribers ++ t) :=
  ⟨(claim_C5_subscribers_append_only encNone).1 exReentrant [Cmd.log 9],
    (claim_C5_subscribers_append_only encNone).2.2.1 10 (Job.doSet 1)
      exNested exNestedOut exNestedTr rfl⟩

/-- C6 as stated is false on the code: it claims `get()` after `set(v)`
returns `v` for every cell and value, but a subscriber may re-entrantly
`set` a different value during the notification round.  Concretely, on a
cell whose subscriber sets `5` whenever it observes `3`, `get()` after
`set(3)` returns `5`, not `3`. -/
theorem claim_C6_counterexample :
    (Signal.set encNone 10 3 exReentrant).map (fun p => Signal.get p.1) =
      some 5 ∧ (5 : Nat) ≠ 3 :=
  ⟨rfl, by decide⟩

/-- C6 (amended): `get` returns the current value and mutates nothing;
`get()` after a `set(v)` whose notification round triggered no nested `set`
(exactly one round was allocated) returns `v`; `Clone` on a handle yields a
handle to the very same cell (same `Rc` pointer), and such a `set` through
one handle is observed by `get` through any clone of it. -/
theorem claim_C6_get_snapshot_amended {α : Type} [DecidableEq α]
    (enc : α → Option String) :
    (∀ st : SignalInner α, Signal.get st = st.value) ∧
    (∀ fuel (v : α) (st st' : SignalInner α) tr,
      Signal.set enc fuel v st = some (st', tr) →
      st'.rounds = st.rounds + 1 → Signal.get st' = v) ∧
    (∀ s : Signal, (Signal.clone s).inner = s.inner) ∧
    (∀ (heap : Heap α) (s t : Signal) fuel (v : α) heap' tr,
      t = Signal.clone s → heapSet enc fuel heap s v = some (heap', tr) →
      (heap' s.inner).rounds = (heap s.inner).rounds + 1 →
      heapGet heap' t = v) := by
  have key : ∀ fuel (v : α) (st st' : SignalInner α) tr,
      Signal.set enc fuel v st = some (st', tr) →
      st'.rounds = st.rounds + 1 → Signal.get st' = v := by
    intro fuel v st st' tr h hrd
    have h' : run enc fuel (Job.doSet v) st = some (st', tr) := h
    obtain ⟨fuel', tr', rfl, hrun, rfl⟩ := run_doSet_elim enc _ v st st' tr h'
    have hc := ((run_const enc fuel').2 st.rounds 0 st.subscribers.length
      _ _ _ hrun (by simp [hrd])).1
    simpa [Signal.get] using hc
  refine ⟨fun st => rfl, key, fun s => rfl, ?_⟩
  intro heap s t fuel v heap' tr ht hset hrd
  subst ht
  simp only [heapSet] at hset
  split at hset
  · exact absurd hset (by simp)
  · rename_i st' tr0 heq
    obtain ⟨rfl, rfl⟩ : Function.update heap s.inner st' = heap' ∧ tr0 = tr := by
      simpa using hset
    simp only [Function.update_same] at hrd
    have : heapGet (Function.update heap s.inner st') (Signal.clone s) =
        Signal.get st' := by
      simp [heapGet, Signal.clone, Function.update_same]
    rw [this]
    exact key fuel v (heap s.inner) st' tr0 heq hrd

/-- Witness for the amended C6: a `set 9` with purely observing subscribers
allocates exactly one round and a subsequent `get` returns `9`. -/
theorem claim_C6_get_snapshot_amended_witness :
    Signal.set encNone 10 9 exSubsLog =
      some ({ value := 9, subscribers := [[Cmd.log 1], [Cmd.log 2]],
              storage := [], avail := false, rounds := 1 },
        [Ev.start 0, Ev.inv 0 0, Ev.log 1, Ev.inv 0 1, Ev.log 2, Ev.done 0]) ∧
    Signal.get ({ value := 9, subscribers := [[Cmd.log 1], [Cmd.log 2]],
                  storage := [], avail := false,
                  rounds := 1 } : SignalInner Nat) = 9 :=
  ⟨rfl, (claim_C6_get_snapshot_amended encNone).2.1 10 9 exSubsLog
    { value := 9, subscribers := [[Cmd.log 1], [Cmd.log 2]],
      storage := [], avail := false, rounds := 1 }
    [Ev.start 0, Ev.inv 0 0, Ev.log 1, Ev.inv 0 1, Ev.log 2, Ev.done 0]
    rfl rfl⟩

end Typhoon
namespace Typhoon

/-!
Part 2 models the `tp!` template compiler (`typhoon-macro/src/lib.rs`).
The parsed template AST (`TpNode`) is compiled by `generate_node` into the
statement sequence of the generated Rust code (one `Stmt` per emitted
statement), and `execStmts` gives the run-time semantics of that generated
code: executing it issues abstract construction-primitive calls (`Call`)
against fresh node handles.  `specBuild` is the specification-side
description of the required call order (codegen contract of spec §4.1),
used to state the refinement.
-/

/-- An opaque host-language expression (`syn::Expr`): either a string
literal or an unevaluated host expression identified by an index. -/
inductive HExpr : Type where
  | lit : String → HExpr
  | var : Nat → HExpr
deriving DecidableEq

/-- `NodeMethod` (typhoon-macro/src/lib.rs:10-13): a directive `.name(arg)`. -/
structure TpMethod : Type where
  name : String
  arg : HExpr
deriving DecidableEq

mutual
/-- `TpNode` (typhoon-macro/src/lib.rs:27-31): tag, directives, children. -/
inductive TpNode : Type where
  | mk : String → List TpMethod → List TpChild → TpNode

/-- `TpChild` (typhoon-macro/src/lib.rs:33-37): a nested node, a string
literal child, or a parenthesized embedded expression. -/
inductive TpChild : Type where
  | node : TpNode → TpChild
  | text : String → TpChild
  | embed : HExpr → TpChild
end

/-- One statement of the token stream generated by `generate_node`; each
constructor mirrors one `quote!` fragment of the source. -/
inductive Stmt : Type where
  | createElS : String → Stmt
  | setTextContentS : HExpr → Stmt
  | setClassS : HExpr → Stmt
  | setStyleS : HExpr → Stmt
  | setAttributeS : String → HExpr → Stmt
  | setOnclickS : HExpr → Stmt
  | setOninputS : HExpr → Stmt
  | setOnkeydownS : HExpr → Stmt
  | appendTextNodeS : String → Stmt
  | childS : List Stmt → Stmt
  | appendEmbedS : HExpr → Stmt

/-- The directive-resolution match of `generate_node`
(typhoon-macro/src/lib.rs:92-155), arm for arm in source order; unknown
names fall through to the generic attribute statement. -/
def generate_method (m : TpMethod) : Stmt :=
  match m.name with
  | "text" => Stmt.setTextContentS m.arg
  | "class" => Stmt.setClassS m.arg
  | "style" => Stmt.setStyleS m.arg
  | "onclick" => Stmt.setOnclickS m.arg
  | "id" => Stmt.setAttributeS "id" m.arg
  | "placeholder" => Stmt.setAttributeS "placeholder" m.arg
  | "value" => Stmt.setAttributeS "value" m.arg
  | "oninput" => Stmt.setOninputS m.arg
  | "onkeydown" => Stmt.setOnkeydownS m.arg
  | _ => Stmt.setAttributeS m.name m.arg

mutual
/-- `generate_node` (typhoon-macro/src/lib.rs:81-190): emit the
`create_element` binding, then one statement per directive in source order,
then the statements for each child in declared order. -/
def generate_node : TpNode → List Stmt
  | TpNode.mk tag ms cs =>
      Stmt.createElS tag :: (ms.map generate_method ++ genChildren cs)

def genChildren : List TpChild → List Stmt
  | [] => []
  | c :: rest => genChild c ++ genChildren rest

/-- A node child compiles to the `let __child = { …; __el };
append_child(&__el, &__child);` block; a text child to an
`append_text_node` call; an embedded expression to the
`{ let __embedded = expr; append_child(&__el, &__embedded); }` block. -/
def genChild : TpChild → List Stmt
  | TpChild.node n => [Stmt.childS (generate_node n)]
  | TpChild.text s => [Stmt.appendTextNodeS s]
  | TpChild.embed e => [Stmt.appendEmbedS e]
end

/-- An abstract construction-primitive call issued by the generated code,
with node handles as numbers (in allocation order).  `appendEmbed p e`
records appending the already-constructed element that the embedded host
expression `e` evaluates to. -/
inductive Call : Type where
  | createElement : Nat → String → Call
  | setTextContent : Nat → HExpr → Call
  | setClass : Nat → HExpr → Call
  | setStyle : Nat → HExpr → Call
  | setAttribute : Nat → String → HExpr → Call
  | setOnclick : Nat → HExpr → Call
  | setOninput : Nat → HExpr → Call
  | setOnkeydown : Nat → HExpr → Call
  | appendChild : Nat → Nat → Call
  | appendTextNode : Nat → String → Call
  | appendEmbed : Nat → HExpr → Call
deriving DecidableEq

mutual
/-- Runtime semantics of one generated statement, given the current `__el`
binding (if any) and a fresh-handle counter: the calls it issues, the
resulting `__el` binding in scope, and the new counter.  `createElS` binds
(or shadows) `__el`, a `childS` block runs its body — whose own `createElS`
shadows `__el` only inside the block — and then appends the block's
resulting handle to the outer element. -/
def execStmt1 : Stmt → Option Nat → Nat → Option (List Call × Option Nat × Nat)
  | Stmt.createElS tag, _, f => some ([Call.createElement f tag], some f, f + 1)
  | Stmt.setTextContentS e, some el, f =>
      some ([Call.setTextContent el e], some el, f)
  | Stmt.setClassS e, some el, f => some ([Call.setClass el e], some el, f)
  | Stmt.setStyleS e, some el, f => some ([Call.setStyle el e], some el, f)
  | Stmt.setAttributeS n e, some el, f =>
      some ([Call.setAttribute el n e], some el, f)
  | Stmt.setOnclickS e, some el, f => some ([Call.setOnclick el e], some el, f)
  | Stmt.setOninputS e, some el, f => some ([Call.setOninput el e], some el, f)
  | Stmt.setOnkeydownS e, some el, f =>
      some ([Call.setOnkeydown el e], some el, f)
  | Stmt.appendTextNodeS s, some el, f =>
      some ([Call.appendTextNode el s], some el, f)
  | Stmt.childS body, some el, f =>
      (match execStmts body (some el) f with
        | some (tr, some cid, f') =>
            some (tr ++ [Call.appendChild el cid], some el, f')
        | _ => none)
  | Stmt.appendEmbedS e, some el, f => some ([Call.appendEmbed el e], some el, f)
  | _, none, _ => none

def execStmts : List Stmt → Option Nat → Nat → Option (List Call × Option Nat × Nat)
  | [], el, f => some ([], el, f)
  | s :: rest, el, f =>
      match execStmt1 s el f with
      | none => none
      | some (tr, el', f') =>
        match execStmts rest el' f' with
        | none => none
        | some (tr2, el'', f'') => some (tr ++ tr2, el'', f'')
end

/-- The `tp!` macro (typhoon-macro/src/lib.rs:203-216): expand the root
node's code and return the root's `__el` binding as the block's value. -/
def tp (n : TpNode) (f : Nat) : Option (List Call × Nat × Nat) :=
  match execStmts (generate_node n) none f with
  | some (tr, some el, f') => some (tr, el, f')
  | _ => none

/-- The specification's directive-resolution table (spec §4.1), written
from the table's rows. -/
def specResolve (el : Nat) (m : TpMethod) : Call :=
  match m.name with
  | "text" => Call.setTextContent el m.arg
  | "class" => Call.setClass el m.arg
  | "style" => Call.setStyle el m.arg
  | "id" => Call.setAttribute el "id" m.arg
  | "placeholder" => Call.setAttribute el "placeholder" m.arg
  | "value" => Call.setAttribute el "value" m.arg
  | "onclick" => Call.setOnclick el m.arg
  | "oninput" => Call.setOninput el m.arg
  | "onkeydown" => Call.setOnkeydown el m.arg
  | other => Call.setAttribute el other m.arg

mutual
/-- Specification-side codegen contract (spec §4.1): create the element,
apply the directives in source order, then process the children in declared
order — a node child is built completely and then appended, a string child
appends a text node, an embedded expression is appended as is.  Returns
(calls, root handle, next fresh handle). -/
def specBuild : TpNode → Nat → List Call × Nat × Nat
  | TpNode.mk tag ms cs, f =>
      let p := specChildren cs f (f + 1)
      (Call.createElement f tag :: (ms.map (specResolve f) ++ p.1), f, p.2)

def specChildren : List TpChild → Nat → Nat → List Call × Nat
  | [], _, f => ([], f)
  | c :: rest, parent, f =>
      let p1 := specChild c parent f
      let p2 := specChildren rest parent p1.2
      (p1.1 ++ p2.1, p2.2)

def specChild : TpChild → Nat → Nat → List Call × Nat
  | TpChild.node n, parent, f =>
      let p := specBuild n f
      (p.1 ++ [Call.appendChild parent p.2.1], p.2.2)
  | TpChild.text s, parent, f => ([Call.appendTextNode parent s], f)
  | TpChild.embed e, parent, f => ([Call.appendEmbed parent e], f)
end

end Typhoon
namespace Typhoon

/-- The nine directive names with dedicated arms in `generate_node`'s
match (typhoon-macro/src/lib.rs:92-146), in source order. -/
def knownDirectives : List String :=
  ["text", "class", "style", "onclick", "id", "placeholder", "value",
   "oninput", "onkeydown"]

theorem generate_method_fallthrough (name : String) (arg : HExpr)
    (h : name ∉ knownDirectives) :
    generate_method ⟨name, arg⟩ = Stmt.setAttributeS name arg := by
  simp only [knownDirectives, List.mem_cons, not_or] at h
  simp only [generate_method]
  split <;> simp_all

theorem specResolve_fallthrough (el : Nat) (name : String) (arg : HExpr)
    (h : name ∉ knownDirectives) :
    specResolve el ⟨name, arg⟩ = Call.setAttribute el name arg := by
  simp only [knownDirectives, List.mem_cons, not_or] at h
  simp only [specResolve]
  split <;> simp_all

/-- Per directive, executing the generated statement issues exactly the
call the specification's resolution table prescribes. -/
theorem exec_generate_method (m : TpMethod) (el f : Nat) :
    execStmt1 (generate_method m) (some el) f =
      some ([specResolve el m], some el, f) := by
  obtain ⟨name, arg⟩ := m
  by_cases h1 : name = "text"
  · subst h1; rfl
  by_cases h2 : name = "class"
  · subst h2; rfl
  by_cases h3 : name = "style"
  · subst h3; rfl
  by_cases h4 : name = "onclick"
  · subst h4; rfl
  by_cases h5 : name = "id"
  · subst h5; rfl
  by_cases h6 : name = "placeholder"
  · subst h6; rfl
  by_cases h7 : name = "value"
  · subst h7; rfl
  by_cases h8 : name = "oninput"
  · subst h8; rfl
  by_cases h9 : name = "onkeydown"
  · subst h9; rfl
  have hnot : name ∉ knownDirectives := by
    simp only [knownDirectives, List.mem_cons, not_or]
    simp_all
  rw [generate_method_fallthrough name arg hnot,
    specResolve_fallthrough el name arg hnot]
  rfl

theorem execStmts_append : ∀ (a b : List Stmt) (el : Option Nat) (f : Nat),
    execStmts (a ++ b) el f =
      match execStmts a el f with
      | none => none
      | some (tr, el', f') =>
        match execStmts b el' f' with
        | none => none
        | some (tr2, el'', f'') => some (tr ++ tr2, el'', f'') := by
  intro a
  induction a with
  | nil =>
    intro b el f
    simp only [List.nil_append, execStmts]
    cases h : execStmts b el f with
    | none => rfl
    | some p => obtain ⟨tr2, el'', f''⟩ := p; simp
  | cons s rest ih =>
    intro b el f
    cases h1 : execStmt1 s el f with
    | none => simp [execStmts, List.append_eq, h1]
    | some p =>
      obtain ⟨tr, el', f'⟩ := p
      cases h2 : execStmts rest el' f' with
      | none => simp [execStmts, List.append_eq, h1, ih, h2]
      | some q =>
        obtain ⟨tr2, el'', f''⟩ := q
        cases h3 : execStmts b el'' f'' with
        | none => simp [execStmts, List.append_eq, h1, ih, h2, h3]
        | some r3 =>
          obtain ⟨tr3, el3, f3⟩ := r3
          simp [execStmts, List.append_eq, h1, ih, h2, h3, List.append_assoc]

/-- Executing the directive statements of a node issues the resolved calls
one for one, in source order, without touching the binding or counter. -/
theorem execStmts_methods : ∀ (ms : List TpMethod) (el f : Nat),
    execStmts (ms.map generate_method) (some el) f =
      some (ms.map (specResolve el), some el, f) := by
  intro ms
  induction ms with
  | nil => intro el f; rfl
  | cons m ms ih =>
    intro el f
    simp only [List.map_cons, execStmts, exec_generate_method, ih,
      List.singleton_append]

theorem specBuild_root (n : TpNode) (f : Nat) : (specBuild n f).2.1 = f := by
  cases n with
  | mk tag ms cs => simp [specBuild]

mutual
/-- Size measure on template nodes (for induction over the nested AST). -/
def nodeSize : TpNode → Nat
  | TpNode.mk _ _ cs => 1 + childrenSize cs

def childrenSize : List TpChild → Nat
  | [] => 0
  | c :: rest => childSize c + childrenSize rest + 1

def childSize : TpChild → Nat
  | TpChild.node n => nodeSize n + 1
  | TpChild.text _ => 1
  | TpChild.embed _ => 1
end


end Typhoon
namespace Typhoon

theorem execStmt1_createEl (tag : String) (el0 : Option Nat) (f : Nat) :
    execStmt1 (Stmt.createElS tag) el0 f =
      some ([Call.createElement f tag], some f, f + 1) := by
  cases el0 <;> rfl

theorem execStmts_cons_createEl (tag : String) (rest : List Stmt)
    (el0 : Option Nat) (f : Nat) :
    execStmts (Stmt.createElS tag :: rest) el0 f =
      match execStmts rest (some f) (f + 1) with
      | none => none
      | some (tr2, el'', f'') =>
          some (Call.createElement f tag :: tr2, el'', f'') := by
  cases el0 <;> rfl

theorem execStmts_singleton_childS (body : List Stmt) (el f : Nat) :
    execStmts [Stmt.childS body] (some el) f =
      match execStmts body (some el) f with
      | some (tr, some cid, f') =>
          some (tr ++ [Call.appendChild el cid], some el, f')
      | _ => none := by
  simp only [execStmts, execStmt1]
  cases h : execStmts body (some el) f with
  | none => rfl
  | some p =>
    obtain ⟨tr, el', f'⟩ := p
    cases el' with
    | none => rfl
    | some cid => simp

end Typhoon
namespace Typhoon

/-- Codegen refinement, all levels at once (by strong induction on the
size): running the generated code of a node (under any outer `__el`
binding) issues exactly the calls of the specification-side build, leaves
the freshly created root handle bound to `__el`, and advances the handle
counter as the build does; likewise for child lists and single children
against their parent's handle. -/
theorem exec_spec_all : ∀ k : Nat,
    (∀ n : TpNode, nodeSize n ≤ k → ∀ (el0 : Option Nat) (f : Nat),
      execStmts (generate_node n) el0 f =
        some ((specBuild n f).1, some f, (specBuild n f).2.2)) ∧
    (∀ cs : List TpChild, childrenSize cs ≤ k → ∀ (parent f : Nat),
      execStmts (genChildren cs) (some parent) f =
        some ((specChildren cs parent f).1, some parent,
          (specChildren cs parent f).2)) ∧
    (∀ c : TpChild, childSize c ≤ k → ∀ (parent f : Nat),
      execStmts (genChild c) (some parent) f =
        some ((specChild c parent f).1, some parent,
          (specChild c parent f).2)) := by
  intro k
  induction k with
  | zero =>
    refine ⟨?_, ?_, ?_⟩
    · intro n hn
      exact absurd hn (by cases n with | mk t ms cs => simp [nodeSize])
    · intro cs hcs parent f
      cases cs with
      | nil => rfl
      | cons c rest => exact absurd hcs (by simp [childrenSize])
    · intro c hc
      exact absurd hc (by cases c <;> simp [childSize, nodeSize])
  | succ k ih =>
    obtain ⟨ihn, ihcs, ihc⟩ := ih
    refine ⟨?_, ?_, ?_⟩
    · intro n hn el0 f
      cases n with
      | mk tag ms cs =>
        have hcs : childrenSize cs ≤ k := by
          simp only [nodeSize] at hn; omega
        rw [show generate_node (TpNode.mk tag ms cs) =
          Stmt.createElS tag :: (ms.map generate_method ++ genChildren cs)
          from rfl]
        rw [execStmts_cons_createEl]
        simp only [execStmts_append, execStmts_methods, ihcs cs hcs]
        simp [specBuild]
    · intro cs hsz parent f
      cases cs with
      | nil => rfl
      | cons c rest =>
        have hc : childSize c ≤ k := by
          simp only [childrenSize] at hsz; omega
        have hrest : childrenSize rest ≤ k := by
          simp only [childrenSize] at hsz; omega
        rw [show genChildren (c :: rest) = genChild c ++ genChildren rest
          from rfl]
        simp only [execStmts_append, ihc c hc, ihcs rest hrest]
        simp [specChildren]
    · intro c hsz parent f
      cases c with
      | node n =>
        have hn : nodeSize n ≤ k := by
          simp only [childSize] at hsz; omega
        rw [show genChild (TpChild.node n) = [Stmt.childS (generate_node n)]
          from rfl]
        rw [execStmts_singleton_childS]
        simp only [ihn n hn]
        simp [specChild, specBuild_root]
      | text s => rfl
      | embed e => rfl

/-- Codegen refinement, node level: the instance of `exec_spec_all` at the
node's own size. -/
theorem execGen (n : TpNode) (el0 : Option Nat) (f : Nat) :
    execStmts (generate_node n) el0 f =
      some ((specBuild n f).1, some f, (specBuild n f).2.2) :=
  (exec_spec_all (nodeSize n)).1 n (le_refl _) el0 f

end Typhoon
namespace Typhoon

/-- The spec's end-to-end example template:
`div.class("app") { h1.text("Hi") }`. -/
def exTemplate : TpNode :=
  TpNode.mk "div" [⟨"class", HExpr.lit "app"⟩]
    [TpChild.node (TpNode.mk "h1" [⟨"text", HExpr.lit "Hi"⟩] [])]

/-- C3: the compiled procedure of every template node issues construction
calls in exactly the contracted order — create-element for the tag; each
directive's resolved call in source order; then each child in declared
order, a node child being fully built recursively before it is appended, a
string child appended as a text node, an embedded expression appended as an
already-built handle — and returns the root's handle (with handles numbered
in allocation order starting from any `f`).  In particular,
`div.class("app"){ h1.text("Hi") }` runs as: create `div`; set its class to
`"app"`; create `h1`; set its text to `"Hi"`; append `h1` into `div`;
return `div`'s handle. -/
theorem claim_C3_codegen_order :
    (∀ (n : TpNode) (f : Nat),
      tp n f = some ((specBuild n f).1, f, (specBuild n f).2.2)) ∧
    tp exTemplate 0 =
      some ([Call.createElement 0 "div", Call.setClass 0 (HExpr.lit "app"),
             Call.createElement 1 "h1",
             Call.setTextContent 1 (HExpr.lit "Hi"),
             Call.appendChild 0 1], 0, 2) := by
  constructor
  · intro n f
    simp [tp, execGen n none f]
  · rfl

/-- C4: directive resolution follows the fixed case-sensitive table —
`text`/`class`/`style` invoke the dedicated text/class/style primitives,
`id`/`placeholder`/`value` invoke the generic attribute primitive under
those names, `onclick`/`oninput`/`onkeydown` attach the respective event
handlers — and every name outside this set compiles (never fails) to a
generic attribute assignment with the directive name verbatim and its
argument. -/
theorem claim_C4_directive_resolution :
    (∀ (arg : HExpr) (el f : Nat),
      execStmt1 (generate_method ⟨"text", arg⟩) (some el) f =
        some ([Call.setTextContent el arg], some el, f)) ∧
    (∀ (arg : HExpr) (el f : Nat),
      execStmt1 (generate_method ⟨"class", arg⟩) (some el) f =
        some ([Call.setClass el arg], some el, f)) ∧
    (∀ (arg : HExpr) (el f : Nat),
      execStmt1 (generate_method ⟨"style", arg⟩) (some el) f =
        some ([Call.setStyle el arg], some el, f)) ∧
    (∀ (arg : HExpr) (el f : Nat),
      execStmt1 (generate_method ⟨"id", arg⟩) (some el) f =
        some ([Call.setAttribute el "id" arg], some el, f)) ∧
    (∀ (arg : HExpr) (el f : Nat),
      execStmt1 (generate_method ⟨"placeholder", arg⟩) (some el) f =
        some ([Call.setAttribute el "placeholder" arg], some el, f)) ∧
    (∀ (arg : HExpr) (el f : Nat),
      execStmt1 (generate_method ⟨"value", arg⟩) (some el) f =
        some ([Call.setAttribute el "value" arg], some el, f)) ∧
    (∀ (arg : HExpr) (el f : Nat),
      execStmt1 (generate_method ⟨"onclick", arg⟩) (some el) f =
        some ([Call.setOnclick el arg], some el, f)) ∧
    (∀ (arg : HExpr) (el f : Nat),
      execStmt1 (generate_method ⟨"oninput", arg⟩) (some el) f =
        some ([Call.setOninput el arg], some el, f)) ∧
    (∀ (arg : HExpr) (el f : Nat),
      execStmt1 (generate_method ⟨"onkeydown", arg⟩) (some el) f =
        some ([Call.setOnkeydown el arg], some el, f)) ∧
    (∀ (name : String) (arg : HExpr) (el f : Nat), name ∉ knownDirectives →
      execStmt1 (generate_method ⟨name, arg⟩) (some el) f =
        some ([Call.setAttribute el name arg], some el, f)) := by
  refine ⟨fun arg el f => rfl, fun arg el f => rfl, fun arg el f => rfl,
    fun arg el f => rfl, fun arg el f => rfl, fun arg el f => rfl,
    fun arg el f => rfl, fun arg el f => rfl, fun arg el f => rfl, ?_⟩
  intro name arg el f h
  rw [generate_method_fallthrough name arg h]
  rfl

/-- Witness for C4's fall-through arm: the unknown directive `data-x`
resolves to a generic attribute assignment with the name verbatim. -/
theorem claim_C4_directive_resolution_witness :
    ("data-x" ∉ knownDirectives) ∧
    execStmt1 (generate_method ⟨"data-x", HExpr.lit "1"⟩) (some 0) 7 =
      some ([Call.setAttribute 0 "data-x" (HExpr.lit "1")], some 0, 7) :=
  ⟨by decide, claim_C4_directive_resolution.2.2.2.2.2.2.2.2.2 "data-x"
    (HExpr.lit "1") 0 7 (by decide)⟩

end Typhoon
namespace Typhoon

/-!
Part 3 models the hash router `use_router`
(typhoon-core/src/lib.rs:277-330).  A route's render function is modelled
by the element value it returns; the container is modelled by its list of
children.
-/

/-- The effective navigation path (typhoon-core/src/lib.rs:285-292):
`window.location.hash`, with an empty hash replaced by `"#/"` before any
comparison. -/
def currentPath (hash : String) : String :=
  if hash = "" then "#/" else hash

/-- The matching loop with its `matched` flag and `break`
(typhoon-core/src/lib.rs:298-306): returns the handler of the first pair
whose path equals the (effective) hash by exact string comparison. -/
def routeLoop {α : Type} (hash : String) : List (String × α) → Option α
  | [] => none
  | (p, h) :: rest => if hash = p then some h else routeLoop hash rest

/-- `while let Some(child) = container.first_child() { remove_child(...) }`
(typhoon-core/src/lib.rs:294-296). -/
def clearChildren {α : Type} : List α → List α
  | [] => []
  | _ :: rest => clearChildren rest

/-- One execution of the router's `render` closure
(typhoon-core/src/lib.rs:284-314) on a container whose children are
`prev`: read and normalize the hash, clear the container, then append the
first matching route's output — or, when nothing matched, the first
route's output (`routes.first()`). -/
def renderRouter {α : Type} (routes : List (String × α)) (hash : String)
    (prev : List α) : List α :=
  let h := currentPath hash
  let cleared := clearChildren prev
  match routeLoop h routes with
  | some out => cleared ++ [out]
  | none =>
      match routes with
      | [] => cleared
      | (_, h0) :: _ => cleared ++ [h0]

/-- Modelled from the spec (§6, router collaborator): "clears the
container's children and invokes the render function whose path equals the
current navigation path, appending its result; if no path matches, the
first pair's render function is used as the default.  Path comparison is
exact string equality." -/
def renderRouterSpec {α : Type} (routes : List (String × α))
    (hash : String) : List α :=
  match routes.find? (fun r => r.1 == currentPath hash) with
  | some r => [r.2]
  | none => (routes.head?.map Prod.snd).toList

theorem clearChildren_eq_nil {α : Type} : ∀ l : List α, clearChildren l = [] := by
  intro l
  induction l with
  | nil => rfl
  | cons x rest ih => simpa [clearChildren] using ih

theorem routeLoop_eq_find {α : Type} (hash : String) :
    ∀ routes : List (String × α),
      routeLoop hash routes =
        (routes.find? (fun r => r.1 == hash)).map Prod.snd := by
  intro routes
  induction routes with
  | nil => rfl
  | cons r rest ih =>
    obtain ⟨p, h⟩ := r
    by_cases hp : hash = p
    · simp [routeLoop, List.find?, hp]
    · have hbe : (p == hash) = false := by
        simp only [beq_eq_false_iff_ne]
        exact fun hh => hp hh.symm
      simp [routeLoop, List.find?, hp, hbe, ih]

/-- C7: on activation and on every hash-change re-render, the router
removes all of its container's children and renders exactly one route's
output — the first pair whose path equals the current navigation path by
exact string comparison, or the first pair when nothing matches; the spec's
two examples follow. -/
theorem claim_C7_router_first_match :
    (∀ (α : Type) (routes : List (String × α)) (hash : String)
      (prev : List α),
      renderRouter routes hash prev = renderRouterSpec routes hash) ∧
    renderRouter [("#/", (0 : Nat)), ("#/about", 1)] "#/about" [5, 6, 7] =
      [1] ∧
    renderRouter [("#/", (0 : Nat)), ("#/about", 1)] "#/missing" [5] = [0] := by
  refine ⟨?_, by rfl, by rfl⟩
  intro α routes hash prev
  simp only [renderRouter, renderRouterSpec, clearChildren_eq_nil,
    routeLoop_eq_find]
  cases hf : routes.find? (fun r => r.1 == currentPath hash) with
  | some r => simp
  | none =>
    cases routes with
    | nil => simp
    | cons r rest => obtain ⟨p, h0⟩ := r; simp

/-- C9: when the location hash is empty at render time, the router
substitutes `"#/"` before matching, so a route registered under `"#/"`
matches an empty hash as a real match of the loop (not merely via the
first-route fallback); every non-empty hash is compared verbatim.  The
final conjunct shows a route list where the `"#/"` route is *not* first:
the empty hash still selects it, which the fallback could not do. -/
theorem claim_C9_empty_hash_normalization :
    currentPath "" = "#/" ∧
    (∀ hash : String, hash ≠ "" → currentPath hash = hash) ∧
    (∀ (α : Type) (routes : List (String × α)),
      (routes.any fun r => r.1 == "#/") = true →
      (routeLoop (currentPath "") routes).isSome = true) ∧
    renderRouter [("#/x", (9 : Nat)), ("#/", 3)] "" [] = [3] := by
  refine ⟨rfl, ?_, ?_, by rfl⟩
  · intro hash hne
    simp [currentPath, hne]
  · intro α routes hany
    have hcp : currentPath "" = "#/" := rfl
    rw [hcp]
    induction routes with
    | nil => simp at hany
    | cons r rest ih =>
      obtain ⟨p, h0⟩ := r
      by_cases hp : p = "#/"
      · simp [routeLoop, hp]
      · have hbe : ¬ ("#/" : String) = p := fun hh => hp hh.symm
        simp only [List.any_cons, Bool.or_eq_true] at hany
        rcases hany with hh | hrest
        · exact absurd (by simpa using hh) hp
        · simp only [routeLoop, if_neg hbe]
          exact ih hrest

/-- Witness for C9: the non-empty hash `"#/about"` is compared verbatim,
and a route list containing `"#/"` (not in first position) really matches
the empty hash in the loop. -/
theorem claim_C9_empty_hash_normalization_witness :
    ("#/about" ≠ "") ∧ currentPath "#/about" = "#/about" ∧
    (([("#/x", (9 : Nat)), ("#/", 3)].any fun r => r.1 == "#/") = true) ∧
    (routeLoop (currentPath "") [("#/x", (9 : Nat)), ("#/", 3)]).isSome =
      true :=
  ⟨by decide, claim_C9_empty_hash_normalization.2.1 "#/about" (by decide),
    by rfl, claim_C9_empty_hash_normalization.2.2.1 Nat
      [("#/x", 9), ("#/", 3)] (by rfl)⟩

end Typhoon
namespace Typhoon

/-!
Part 4 models `use_local_storage` (typhoon-core/src/lib.rs:245-269): a
signal whose initial value is decoded from the stored JSON under `key`
(falling back to `default`), with a persistence callback subscribed before
the signal is returned.
-/

/-- `use_local_storage` (typhoon-core/src/lib.rs:245-269).  `dec` is
`serde_json::from_str` (`none` = absent-or-malformed handled by the `.ok()`
/ `.flatten()` chain), the initial read chain is
`window → local_storage → get_item(key) → from_str`, falling back to
`default`; then the persistence callback — serialize the signal's current
value and `set_item` it under the same `key` — is subscribed to the fresh
signal before it is returned. -/
def use_local_storage {α : Type} (dec : String → Option α) (key : String)
    (default : α) (storage : List (String × String)) (avail : Bool) :
    SignalInner α :=
  let initial :=
    ((if avail then lookupKV storage key else none).bind dec).getD default
  Signal.subscribe (Signal.new initial storage avail) [Cmd.persist key]

/-- Shared unfolding for C8/C10: a `set v` on a cell whose first subscriber
is the persistence callback (with storage available and serialization
succeeding) starts its round, invokes subscriber 0, performs the storage
write — and only then continues with the subscribers registered after
construction. -/
theorem set_persist_head {α : Type} [DecidableEq α] (enc : α → Option String)
    (fuel : Nat) (st : SignalInner α) (key : String)
    (rest : List (List (Cmd α))) (v : α) (j : String)
    (st' : SignalInner α) (tr : List Ev)
    (hsubs : st.subscribers = [Cmd.persist key] :: rest)
    (hav : st.avail = true) (henc : enc v = some j)
    (h : run enc fuel (Job.doSet v) st = some (st', tr)) :
    ∃ fuel2 tr2,
      run enc fuel2 (Job.round st.rounds 1 st.subscribers.length)
        { st with value := v, rounds := st.rounds + 1,
                  storage := (key, j) :: st.storage } = some (st', tr2) ∧
      tr = Ev.start st.rounds :: Ev.inv st.rounds 0 :: Ev.write key :: tr2 := by
  obtain ⟨fuel1, tr1, rfl, hrun, rfl⟩ := run_doSet_elim enc fuel v st st' tr h
  have hn : 0 < st.subscribers.length := by rw [hsubs]; simp
  obtain ⟨fuel2, cb, stm, trm, trm2, rfl, hcb, hc1, hc2, rfl⟩ :=
    run_round_elim enc fuel1 st.rounds 0 st.subscribers.length _ st' tr1
      hrun (by simpa using hn)
  have hcb' : cb = [Cmd.persist key] := by
    simp only [hsubs] at hcb
    simpa using hcb.symm
  subst hcb'
  cases fuel2 with
  | zero => simp [run] at hc1
  | succ fuel3 =>
    simp only [run] at hc1
    have hg : (if st.avail = true then enc v else none) = some j := by
      rw [hav, if_pos rfl, henc]
    rw [hg] at hc1
    cases fuel3 with
    | zero => simp [run] at hc1
    | succ fuel4 =>
      simp only [run] at hc1
      obtain ⟨rfl, rfl⟩ :
          ({ st with value := v, rounds := st.rounds + 1,
                     storage := (key, j) :: st.storage } : SignalInner α) = stm ∧
          [Ev.write key] = trm := by
        simpa using hc1
      refine ⟨fuel4 + 1 + 1, trm2, ?_, by simp⟩
      simpa using hc2

end Typhoon
namespace Typhoon

/-- A toy decoder for small naturals (stands in for `serde_json::from_str`
in the concrete witnesses). -/
def decNat : String → Option Nat
  | "5" => some 5
  | "7" => some 7
  | _ => none

/-- C8: the persistence-backed cell reads the stored value under its key on
construction and decodes it as the initial value when present and
well-formed, otherwise falls back to the supplied default (also on decode
failure or when storage is unavailable); after construction every `set(v)`
(whose round performs no nested `set`) serializes the new value and writes
it under the same key; with unavailable storage or a failing serializer no
write happens at all; and the outcome never depends on the storage world —
persistence failures do not affect the in-memory cell. -/
theorem claim_C8_local_storage_persistence {α : Type} [DecidableEq α]
    (enc : α → Option String) (dec : String → Option α) :
    (∀ (key : String) (d : α) (storage : List (String × String))
      (j : String) (v : α),
      lookupKV storage key = some j → dec j = some v →
      (use_local_storage dec key d storage true).value = v) ∧
    (∀ (key : String) (d : α) (storage : List (String × String))
      (avail : Bool),
      ((if avail then lookupKV storage key else none).bind dec) = none →
      (use_local_storage dec key d storage avail).value = d) ∧
    (∀ fuel (st : SignalInner α) (key : String)
      (rest : List (List (Cmd α))) (v : α) (j : String)
      (st' : SignalInner α) (tr : List Ev),
      st.subscribers = [Cmd.persist key] :: rest →
      st.avail = true → enc v = some j →
      Signal.set enc fuel v st = some (st', tr) →
      st'.rounds = st.rounds + 1 →
      lookupKV st'.storage key = some j) ∧
    (∀ fuel (job : Job α) (st st' : SignalInner α) (tr : List Ev),
      run enc fuel job st = some (st', tr) →
      (st.avail = false ∨ ∀ u, enc u = none) →
      st'.storage = st.storage) ∧
    (∀ fuel (job : Job α) (st1 st2 : SignalInner α),
      memPart st1 = memPart st2 →
      ∀ (st1' : SignalInner α) (tr1 : List Ev),
        run enc fuel job st1 = some (st1', tr1) →
        ∃ st2' tr2, run enc fuel job st2 = some (st2', tr2) ∧
          memPart st1' = memPart st2') := by
  refine ⟨?_, ?_, ?_, run_persist_noop enc, run_indep enc⟩
  · intro key d storage j v hj hv
    simp [use_local_storage, Signal.subscribe, Signal.new, hj, hv]
  · intro key d storage avail hnone
    simp [use_local_storage, Signal.subscribe, Signal.new, hnone]
  · intro fuel st key rest v j st' tr hsubs hav henc h hrd
    obtain ⟨fuel2, tr2, hrun2, htr⟩ :=
      set_persist_head enc fuel st key rest v j st' tr hsubs hav henc h
    have hrd2 : st'.rounds =
        ({ st with value := v, rounds := st.rounds + 1,
                   storage := (key, j) :: st.storage } :
          SignalInner α).rounds := by
      simpa using hrd
    have hconst := (run_const enc fuel2).2 st.rounds 1
      st.subscribers.length _ _ _ hrun2 hrd2
    rcases hconst.2 key with hk | ⟨hav', j', hj', hk⟩
    · rw [hk]; simp
    · have hjj : j' = j := by
        have h2 : enc v = some j' := by simpa using hj'
        rw [henc] at h2
        exact (Option.some.inj h2).symm
      rw [hk, hjj]

/-- Witness for C8: constructing over stored `"7"` decodes the initial
value `7`; a concrete `set 5` on an as-constructed cell writes `"5"` under
the same key. -/
theorem claim_C8_local_storage_persistence_witness :
    lookupKV [("k", "7")] "k" = some "7" ∧
    decNat "7" = some (7 : Nat) ∧
    (use_local_storage decNat "k" (0 : Nat) [("k", "7")] true).value
      = 7 ∧
    Signal.set encShow 10 5
        (use_local_storage decNat "k" (0 : Nat) [] true) =
      some ({ value := 5, subscribers := [[Cmd.persist "k"]],
              storage := [("k", "5")], avail := true, rounds := 1 },
        [Ev.start 0, Ev.inv 0 0, Ev.write "k", Ev.done 0]) ∧
    lookupKV ({ value := 5, subscribers := [[Cmd.persist "k"]],
                storage := [("k", "5")], avail := true,
                rounds := 1 } : SignalInner Nat).storage "k" = some "5" := by
  refine ⟨rfl, rfl,
    (claim_C8_local_storage_persistence encShow decNat).1
      "k" 0 [("k", "7")] "7" 7 rfl rfl,
    rfl,
    (claim_C8_local_storage_persistence encShow decNat).2.2.1
      10 (use_local_storage decNat "k" (0 : Nat) [] true) "k" [] 5 "5"
      _ _ rfl rfl rfl rfl rfl⟩

/-- C10: `use_local_storage` registers the persistence callback as the
first (and, at construction time, only) subscriber before returning the
cell; since subscribers fire in registration order, on every subsequent
`set` the storage write (serializing the value read from the cell at
notification time) executes before any subscriber registered after
construction: the trace begins with the round start, the invocation of
subscriber 0, and the write — in that order, before anything else. -/
theorem claim_C10_persist_subscribed_first {α : Type} [DecidableEq α]
    (enc : α → Option String) (dec : String → Option α) :
    (∀ (key : String) (d : α) (storage : List (String × String))
      (avail : Bool),
      (use_local_storage dec key d storage avail).subscribers =
        [[Cmd.persist key]]) ∧
    (∀ fuel (st : SignalInner α) (key : String)
      (rest : List (List (Cmd α))) (v : α) (j : String)
      (st' : SignalInner α) (tr : List Ev),
      st.subscribers = [Cmd.persist key] :: rest →
      st.avail = true → enc v = some j →
      Signal.set enc fuel v st = some (st', tr) →
      tr.take 3 = [Ev.start st.rounds, Ev.inv st.rounds 0, Ev.write key]) := by
  refine ⟨fun key d storage avail => rfl, ?_⟩
  intro fuel st key rest v j st' tr hsubs hav henc h
  obtain ⟨fuel2, tr2, hrun2, htr⟩ :=
    set_persist_head enc fuel st key rest v j st' tr hsubs hav henc h
  rw [htr]
  rfl

/-- Witness for C10: on a persistence-backed cell with one later-registered
subscriber, `set 5` puts the storage write immediately after the
invocation of subscriber 0, before subscriber 1 runs. -/
theorem claim_C10_persist_subscribed_first_witness :
    (use_local_storage decNat "k" (0 : Nat) [] true).subscribers =
      [[Cmd.persist "k"]] ∧
    Signal.set encShow 10 5
        (Signal.subscribe
          (use_local_storage decNat "k" (0 : Nat) [] true)
          [Cmd.log 3]) =
      some ({ value := 5, subscribers := [[Cmd.persist "k"], [Cmd.log 3]],
              storage := [("k", "5")], avail := true, rounds := 1 },
        [Ev.start 0, Ev.inv 0 0, Ev.write "k", Ev.inv 0 1, Ev.log 3,
         Ev.done 0]) ∧
    ([Ev.start 0, Ev.inv 0 0, Ev.write "k", Ev.inv 0 1, Ev.log 3,
      Ev.done 0] : List Ev).take 3 = [Ev.start 0, Ev.inv 0 0, Ev.write "k"] :=
  ⟨(claim_C10_persist_subscribed_first encShow decNat).1
      "k" 0 [] true,
    rfl,
    (claim_C10_persist_subscribed_first encShow decNat).2 10
      (Signal.subscribe (use_local_storage decNat "k" (0 : Nat) [] true)
        [Cmd.log 3])
      "k" [[Cmd.log 3]] 5 "5" _ _ rfl rfl rfl rfl⟩

end Typhoon
